import Mathlib

/-
  Verification of the prototool command surface, config-init template,
  lexer, formatter, lint configuration and break checker.

  Definitions in the Cmd and Cfginit namespaces are shallow embeddings of
  the Go sources (package cmd in src/unnamed/part_000 and package cfginit
  in src/internal/cfginit/cfginit.go).  Components of the repository whose
  implementation files are not present (the exec runner, the lexer, the
  format engine, the lint engine and the break checker) are modelled from
  the specification; each such definition carries a doc comment starting
  with the words Modelled from the spec.
-/

namespace Prototool

namespace Cmd

/-- Positional-argument policies used by the command templates, embedding
the cobra.PositionalArgs values appearing in the source: MaximumNArgs,
MinimumNArgs and NoArgs. -/
inductive PositionalArgs where
  | maximumNArgs (n : Nat)
  | minimumNArgs (n : Nat)
  | noArgs
  deriving DecidableEq, Repr

/-- Whether a positional-args policy accepts an invocation with k
positional arguments, following the cobra semantics of the three policies
used in the source. -/
def argsAccept : PositionalArgs → Nat → Bool
  | .maximumNArgs n, k => k ≤ n
  | .minimumNArgs n, k => n ≤ k
  | .noArgs, k => k == 0

/-- The flags bound by the BindFlags functions of the command templates in
the source. -/
inductive FlagName where
  | cachePath | configData | disableFormat | disableLint | errorFormat
  | json | fix | protocURL | protocBinPath | protocWKTPath
  | allowBetaDeps | gitBranch | gitTag | includeBeta
  | dryRun | pkg | diffMode | lintMode | overwrite
  | address | callTimeout | connectTimeout | data | headers
  | keepaliveTime | methodFlag | stdinFlag | nameFlag | uncomment
  | listAllLinters | listLinters | listAllLintGroups | listLintGroup
  | diffLintGroups
  deriving DecidableEq, Repr

/-- Embedding of the cmdTemplate struct: the Use string, the positional
args policy, and the list of flags bound by BindFlags (empty when the
template has no BindFlags function). -/
structure CmdTemplate where
  use : String
  args : PositionalArgs
  binds : List FlagName
  deriving DecidableEq, Repr

def allCmdTemplate : CmdTemplate :=
  { use := "all [dirOrFile]"
    args := .maximumNArgs 1
    binds := [ .cachePath, .configData, .disableFormat, .disableLint,
               .errorFormat, .json, .fix, .protocURL, .protocBinPath,
               .protocWKTPath ] }

def breakCheckCmdTemplate : CmdTemplate :=
  { use := "check [dir]"
    args := .maximumNArgs 1
    binds := [ .allowBetaDeps, .cachePath, .configData, .gitBranch,
               .gitTag, .json, .includeBeta, .protocURL, .protocBinPath,
               .protocWKTPath ] }

def cacheUpdateCmdTemplate : CmdTemplate :=
  { use := "update [dirOrFile]"
    args := .maximumNArgs 1
    binds := [ .cachePath, .configData ] }

def cacheDeleteCmdTemplate : CmdTemplate :=
  { use := "delete"
    args := .noArgs
    binds := [] }

def compileCmdTemplate : CmdTemplate :=
  { use := "compile [dirOrFile]"
    args := .maximumNArgs 1
    binds := [ .cachePath, .configData, .dryRun, .errorFormat, .json,
               .protocURL, .protocBinPath, .protocWKTPath ] }

def createCmdTemplate : CmdTemplate :=
  { use := "create files..."
    args := .minimumNArgs 1
    binds := [ .configData, .pkg ] }

def filesCmdTemplate : CmdTemplate :=
  { use := "files [dirOrFile]"
    args := .maximumNArgs 1
    binds := [ .configData ] }

def formatCmdTemplate : CmdTemplate :=
  { use := "format [dirOrFile]"
    args := .maximumNArgs 1
    binds := [ .cachePath, .configData, .diffMode, .errorFormat, .json,
               .lintMode, .overwrite, .fix, .protocURL, .protocBinPath,
               .protocWKTPath ] }

def generateCmdTemplate : CmdTemplate :=
  { use := "generate [dirOrFile]"
    args := .maximumNArgs 1
    binds := [ .cachePath, .configData, .dryRun, .errorFormat, .json,
               .protocURL, .protocBinPath, .protocWKTPath ] }

def grpcCmdTemplate : CmdTemplate :=
  { use := "grpc [dirOrFile]"
    args := .maximumNArgs 1
    binds := [ .cachePath, .configData, .address, .callTimeout,
               .connectTimeout, .data, .errorFormat, .headers,
               .keepaliveTime, .methodFlag, .stdinFlag, .protocURL,
               .protocBinPath, .protocWKTPath ] }

def inspectPackagesCmdTemplate : CmdTemplate :=
  { use := "packages [dirOrFile]"
    args := .maximumNArgs 1
    binds := [ .cachePath, .configData, .errorFormat, .protocURL,
               .protocBinPath, .protocWKTPath ] }

def inspectPackageDepsCmdTemplate : CmdTemplate :=
  { use := "package-deps [dirOrFile]"
    args := .maximumNArgs 1
    binds := [ .cachePath, .configData, .errorFormat, .nameFlag,
               .protocURL, .protocBinPath, .protocWKTPath ] }

def inspectPackageImportersCmdTemplate : CmdTemplate :=
  { use := "package-importers [dirOrFile]"
    args := .maximumNArgs 1
    binds := [ .cachePath, .configData, .errorFormat, .nameFlag,
               .protocURL, .protocBinPath, .protocWKTPath ] }

def configInitCmdTemplate : CmdTemplate :=
  { use := "init [dirPath]"
    args := .maximumNArgs 1
    binds := [ .uncomment ] }

def lintCmdTemplate : CmdTemplate :=
  { use := "lint [dirOrFile]"
    args := .maximumNArgs 1
    binds := [ .cachePath, .configData, .errorFormat, .json,
               .listAllLinters, .listLinters, .listAllLintGroups,
               .listLintGroup, .diffLintGroups, .protocURL,
               .protocBinPath, .protocWKTPath ] }

def versionCmdTemplate : CmdTemplate :=
  { use := "version"
    args := .noArgs
    binds := [ .json ] }

/-- All sixteen command templates declared in the source file. -/
def allCmdTemplates : List CmdTemplate :=
  [ allCmdTemplate, breakCheckCmdTemplate, cacheUpdateCmdTemplate,
    cacheDeleteCmdTemplate, compileCmdTemplate, createCmdTemplate,
    filesCmdTemplate, formatCmdTemplate, generateCmdTemplate,
    grpcCmdTemplate, inspectPackagesCmdTemplate,
    inspectPackageDepsCmdTemplate, inspectPackageImportersCmdTemplate,
    configInitCmdTemplate, lintCmdTemplate, versionCmdTemplate ]

/-- The thirteen command templates whose Use line has an optional
directory-or-file positional argument. -/
def dirOrFileCmdTemplates : List CmdTemplate :=
  [ allCmdTemplate, breakCheckCmdTemplate, cacheUpdateCmdTemplate,
    compileCmdTemplate, filesCmdTemplate, formatCmdTemplate,
    generateCmdTemplate, grpcCmdTemplate, inspectPackagesCmdTemplate,
    inspectPackageDepsCmdTemplate, inspectPackageImportersCmdTemplate,
    configInitCmdTemplate, lintCmdTemplate ]

/-- Modelled from the spec: the exec.Runner (not under src) resolves the
optional positional argument, with the current working directory used
when the argument is omitted. -/
def resolveDirOrFile (workDirPath : String) (args : List String) : String :=
  match args with
  | [] => workDirPath
  | a :: _ => a

/-- The flags struct of package cmd, restricted to the fields read by
getRunner and the command Run functions embedded here. -/
structure Flags where
  cachePath : String := ""
  configData : String := ""
  errorFormat : String := ""
  protocBinPath : String := ""
  protocWKTPath : String := ""
  protocURL : String := ""
  json : Bool := false
  debug : Bool := false
  deriving DecidableEq, Repr

/-- The exec.RunnerOption values appended by getRunner. -/
inductive RunnerOption where
  | withLogger
  | withCachePath (p : String)
  | withConfigData (d : String)
  | withJSON
  | withProtocBinPath (p : String)
  | withProtocWKTPath (p : String)
  | withErrorFormat (f : String)
  | withProtocURL (u : String)
  | withDevelMode
  deriving DecidableEq, Repr

/-- Embedding of the option-assembly part of getRunner: the list of
runner options built from the flags, in source order. -/
def getRunnerOptions (develMode : Bool) (f : Flags) : List RunnerOption :=
  [RunnerOption.withLogger]
    ++ (if f.cachePath ≠ "" then [RunnerOption.withCachePath f.cachePath] else [])
    ++ (if f.configData ≠ "" then [RunnerOption.withConfigData f.configData] else [])
    ++ (if f.json then [RunnerOption.withJSON] else [])
    ++ (if f.protocBinPath ≠ "" then [RunnerOption.withProtocBinPath f.protocBinPath] else [])
    ++ (if f.protocWKTPath ≠ "" then [RunnerOption.withProtocWKTPath f.protocWKTPath] else [])
    ++ (if f.errorFormat ≠ "" then [RunnerOption.withErrorFormat f.errorFormat] else [])
    ++ (if f.protocURL ≠ "" then [RunnerOption.withProtocURL f.protocURL] else [])
    ++ (if develMode then [RunnerOption.withDevelMode] else [])

/-- Modelled from the spec: the configuration source the runner ends up
using.  Configuration data may alternatively be supplied as an inline
string; when present, it overrides any on-disk file. -/
inductive ConfigSource where
  | inlineData (data : String)
  | onDisk
  deriving DecidableEq, Repr

/-- Modelled from the spec: the exec.Runner (not under src) uses the data
of a RunnerWithConfigData option when one is present, and the on-disk
configuration resolution otherwise. -/
def runnerConfigSource (opts : List RunnerOption) : ConfigSource :=
  match opts.filterMap (fun o => match o with
    | RunnerOption.withConfigData d => some d
    | _ => none) with
  | [] => ConfigSource.onDisk
  | d :: _ => ConfigSource.inlineData d

/-- The error kinds of the specification (section 7). -/
inductive ErrorKind where
  | configInvalid | notFound | ioErr | network | toolchainCorrupt
  | protocFailure | parseErr | lintFailure | formatDiff | breaking
  | rpc | fixConflict | internalErr
  deriving DecidableEq, Repr

/-- Modelled from the spec: diagnostic failures (from lint, format,
break and compile) exit 1; operational errors (config invalid, I/O,
network, toolchain-corrupt, rpc, internal, not-found) exit 2. -/
def isDiagnosticKind : ErrorKind → Bool
  | .protocFailure => true
  | .parseErr => true
  | .lintFailure => true
  | .formatDiff => true
  | .breaking => true
  | .fixConflict => true
  | _ => false

/-- Modelled from the spec: printAndGetErrorExitCode (package cmd, not
under src) prints the error and returns the exit code, 1 for diagnostic
failures and 2 for operational errors. -/
def printAndGetErrorExitCode (e : ErrorKind) : Nat :=
  if isDiagnosticKind e then 1 else 2

/-- Embedding of checkCmd: build the runner; on failure store the error
exit code; otherwise run the command function and store its error exit
code if it fails.  The stored exit code starts at 0 and is left untouched
on success. -/
def checkCmd {α : Type} (getRunnerResult : Except ErrorKind α)
    (f : α → Option ErrorKind) : Nat :=
  match getRunnerResult with
  | Except.error err => printAndGetErrorExitCode err
  | Except.ok runner =>
    match f runner with
    | some err => printAndGetErrorExitCode err
    | none => 0

/-- Modelled from the spec: cache root resolution.  The default cache
root is XDG_CACHE_HOME/prototool when XDG_CACHE_HOME is set, otherwise
HOME/.cache/prototool on Linux and HOME/Library/Caches/prototool on
Darwin. -/
inductive OperatingSystem where
  | linux | darwin
  deriving DecidableEq, Repr

/-- The environment variables consulted for cache root resolution. -/
structure Env where
  xdgCacheHome : Option String
  home : String
  goos : OperatingSystem
  deriving DecidableEq, Repr

/-- Modelled from the spec: the default cache root derived from the
environment. -/
def defaultCacheRoot (env : Env) : String :=
  match env.xdgCacheHome with
  | some x => x ++ "/prototool"
  | none =>
    match env.goos with
    | .linux => env.home ++ "/.cache/prototool"
    | .darwin => env.home ++ "/Library/Caches/prototool"

/-- Modelled from the spec: Runner.CacheDelete (not under src) removes
the default cache root and never a user-specified cache path; the delete
command template binds no cache-path flag at all. -/
def cacheDeleteTarget (env : Env) (_flags : Flags) : String :=
  defaultCacheRoot env

end Cmd

namespace Cfginit

/-- One piece of a template line: literal text, the V action (comment
marker) or the ProtocVersion action. -/
inductive TPiece where
  | lit (s : String)
  | vmark
  | pver
  deriving DecidableEq, Repr

/-- The html template HTML escaper applied to interpolated values in
plain-text context: ampersand, angle brackets and both quote characters
are replaced by entities, and the NUL character by the replacement
character; every other character passes through unchanged. -/
def htmlEscapeChar (c : Char) : List Char :=
  if c = '&' then "&amp;".data
  else if c = '<' then "&lt;".data
  else if c = '>' then "&gt;".data
  else if c = '"' then "&#34;".data
  else if c = Char.ofNat 39 then "&#39;".data
  else if c = Char.ofNat 0 then [Char.ofNat 0xFFFD]
  else [c]

def htmlEscape (cs : List Char) : List Char :=
  (cs.map htmlEscapeChar).flatten

def renderPiece (vc ver : List Char) : TPiece → List Char
  | .lit s => s.data
  | .vmark => vc
  | .pver => ver

/-- Render one template line given the V value and the escaped protoc
version. -/
def renderLine (vc ver : List Char) (l : List TPiece) : List Char :=
  (l.map (renderPiece vc ver)).flatten

def tmplLines0 : List (List TPiece) :=
  [ [ .lit "# Paths to exclude when searching for Protobuf files." ],
    [ .vmark, .lit "excludes:" ],
    [ .vmark, .lit "  - path/to/a" ],
    [ .vmark, .lit "  - path/to/b/file.proto" ],
    [],
    [ .lit "# Protoc directives." ],
    [ .lit "protoc:" ],
    [ .lit "  # The Protobuf version to use from https://github.com/protocolbuffers/protobuf/releases." ],
    [ .lit "  # By default use ", .pver, .lit "." ],
    [ .lit "  # You probably want to set this to make your builds completely reproducible." ],
    [ .lit "  version: ", .pver ],
    [],
    [ .lit "  # Additional paths to include with -I to protoc." ],
    [ .lit "  # By default, the directory of the config file is included," ],
    [ .lit "  # or the current directory if there is no config file." ],
    [ .lit "  ", .vmark, .lit "includes:" ],
    [ .lit "  ", .vmark, .lit "  - ../../vendor/github.com/grpc-ecosystem/grpc-gateway/third_party/googleapis" ],
    [] ]

def tmplLines1 : List (List TPiece) :=
  [ [],
    [ .lit "  # If not set, compile will fail if there are unused imports." ],
    [ .lit "  # Setting this will ignore unused imports." ],
    [ .lit "  ", .vmark, .lit "allow_unused_imports: true" ],
    [],
    [ .lit "# Create directives." ],
    [ .vmark, .lit "create:" ],
    [ .lit "  # List of mappings from relative directory to base package." ],
    [ .lit "  # This affects how packages are generated with create." ],
    [ .lit "  ", .vmark, .lit "packages:" ],
    [ .lit "    # This means that a file created \"foo.proto\" in the current directory will have package \"bar\"." ],
    [ .lit "    # A file created \"a/b/foo.proto\" will have package \"bar.a.b\"." ],
    [ .lit "    ", .vmark, .lit "- directory: ." ],
    [ .lit "    ", .vmark, .lit "  name: bar" ],
    [ .lit "    # This means that a file created \"idl/code.uber/a/b/c.proto\" will have package \"uber.a.b\"." ],
    [ .lit "    ", .vmark, .lit "- directory: idl/code.uber" ],
    [ .lit "    ", .vmark, .lit "  name: uber" ],
    [] ]

def tmplLines2 : List (List TPiece) :=
  [ [ .lit "# Lint directives." ],
    [ .vmark, .lit "lint:" ],
    [ .lit "  # The lint group to use." ],
    [ .lit "  # The default group is the \"default\" lint group, which is equal to the \"uber1\" lint group." ],
    [ .lit "  # Run prototool lint --list-all-lint-groups to see all available lint groups." ],
    [ .lit "  # Run prototool lint --list-lint-group GROUP to list the linters in the given lint group." ],
    [ .lit "  # Setting this value will result in lint.rules.no_default being ignored." ],
    [ .vmark, .lit "  group: uber2" ],
    [],
    [ .lit "  # Linter files to ignore." ],
    [ .vmark, .lit "  ignores:" ],
    [ .vmark, .lit "    - id: RPC_NAMES_CAMEL_CASE" ],
    [ .vmark, .lit "      files:" ],
    [ .vmark, .lit "        - path/to/foo.proto" ],
    [ .vmark, .lit "        - path/to/bar.proto" ],
    [ .vmark, .lit "    - id: SYNTAX_PROTO3" ],
    [ .vmark, .lit "      files:" ],
    [ .vmark, .lit "        - path/to/foo.proto" ] ]

def tmplLines3 : List (List TPiece) :=
  [ [],
    [ .lit "  # Linter rules." ],
    [ .lit "  # Run prototool lint --list-all-linters to see all available linters." ],
    [ .lit "  # Run prototool lint --list-linters to see the currently configured linters." ],
    [ .vmark, .lit "  rules:" ],
    [ .lit "    # Determines whether or not to include the default set of linters." ],
    [ .lit "    # This allows all linters to be turned off except those explicitly specified in add." ],
    [ .lit "    # This value is ignored if lint.group is set." ],
    [ .vmark, .lit "    no_default: true" ],
    [],
    [ .lit "    # The specific linters to add." ],
    [ .vmark, .lit "    add:" ],
    [ .vmark, .lit "      - ENUM_NAMES_CAMEL_CASE" ],
    [ .vmark, .lit "      - ENUM_NAMES_CAPITALIZED" ],
    [],
    [ .lit "    # The specific linters to remove." ],
    [ .vmark, .lit "    remove:" ],
    [ .vmark, .lit "      - ENUM_NAMES_CAMEL_CASE" ] ]

def tmplLines4 : List (List TPiece) :=
  [ [],
    [ .lit "  # The path to the file header for all Protobuf files." ],
    [ .lit "  # If this is set and the FILE_HEADER linter is turned on, files will" ],
    [ .lit "  # be checked to begin with the contents of this file, and format --fix" ],
    [ .lit "  # will place this header before the syntax declaration. Note that" ],
    [ .lit "  # format --fix will delete anything before the syntax declaration" ],
    [ .lit "  # if this is set." ],
    [ .lit "  #" ],
    [ .lit "  # If is_commented is set, this file is assumed to already have comments" ],
    [ .lit "  # and will be added directly. If is_commented is not set, \"// \" will be" ],
    [ .lit "  # added before every line." ],
    [ .vmark, .lit "  file_header:" ],
    [ .vmark, .lit "    path: path/to/protobuf_file_header.txt" ],
    [ .vmark, .lit "    is_commented: true" ],
    [],
    [ .lit "# Code generation directives." ],
    [ .vmark, .lit "generate:" ],
    [ .lit "  # Options that will apply to all plugins of type go and gogo." ] ]

def tmplLines5 : List (List TPiece) :=
  [ [ .vmark, .lit "  go_options:" ],
    [ .lit "    # The base import path. This should be the go path of the prototool.yaml file." ],
    [ .lit "    # This is required if you have any go plugins." ],
    [ .vmark, .lit "    import_path: uber/foo/bar.git/idl/uber" ],
    [],
    [ .lit "    # Extra modifiers to include with Mfile=package." ],
    [ .vmark, .lit "    extra_modifiers:" ],
    [ .vmark, .lit "      google/api/annotations.proto: google.golang.org/genproto/googleapis/api/annotations" ],
    [ .vmark, .lit "      google/api/http.proto: google.golang.org/genproto/googleapis/api/annotations" ],
    [],
    [ .lit "  # The list of plugins." ],
    [ .vmark, .lit "  plugins:" ],
    [ .lit "      # The plugin name. This will go to protoc with --name_out, so it either needs" ],
    [ .lit "      # to be a built-in name (like java), or a plugin name with a binary" ],
    [ .lit "      # protoc-gen-name." ],
    [ .vmark, .lit "    - name: gogo" ],
    [],
    [ .lit "      # The type, if any. Valid types are go, gogo." ] ]

def tmplLines6 : List (List TPiece) :=
  [ [ .lit "      # Use go if your plugin is a standard Golang plugin" ],
    [ .lit "      # that uses github.com/golang/protobuf imports, use gogo" ],
    [ .lit "      # if it uses github.com/gogo/protobuf imports. For protoc-gen-go" ],
    [ .lit "      # use go, For protoc-gen-gogo, protoc-gen-gogoslick, etc, use gogo." ],
    [ .vmark, .lit "      type: gogo" ],
    [],
    [ .lit "      # Extra flags to specify." ],
    [ .lit "      # The only flag you will generally set is plugins=grpc for Golang." ],
    [ .lit "      # The Mfile=package flags are automatically set." ],
    [ .lit "      # ** Otherwise, generally do not set this unless you know what you are doing. **" ],
    [ .vmark, .lit "      flags: plugins=grpc" ],
    [],
    [ .lit "      # The path to output generated files to." ],
    [ .lit "      # If the directory does not exist, it will be created when running generation." ],
    [ .lit "      # This needs to be a relative path." ],
    [ .vmark, .lit "      output: ../../.gen/proto/go" ],
    [],
    [ .lit "      # Optional override for the plugin path. For example, if you set set path to" ] ]

def tmplLines7 : List (List TPiece) :=
  [ [ .lit "      # /usr/local/bin/gogo_plugin\", prototool will add the" ],
    [ .lit "      # \"--plugin=protoc-gen-gogo=/usr/local/bin/gogo_plugin\" flag to protoc calls." ],
    [ .lit "      # If set to \"gogo_plugin\", prototool will search your path for \"gogo_plugin\",." ],
    [ .lit "      # and fail if \"gogo_plugin\" cannot be found." ],
    [ .vmark, .lit "      path: gogo_plugin" ],
    [],
    [ .vmark, .lit "    - name: yarpc-go" ],
    [ .vmark, .lit "      type: gogo" ],
    [ .vmark, .lit "      output: ../../.gen/proto/go" ],
    [],
    [ .vmark, .lit "    - name: grpc-gateway" ],
    [ .vmark, .lit "      type: go" ],
    [ .vmark, .lit "      output: ../../.gen/proto/go" ],
    [],
    [ .vmark, .lit "    - name: java" ],
    [ .vmark, .lit "      output: ../../.gen/proto/java" ],
    [],
    [ .lit "      # Optional file suffix for plugins that output a single file as opposed" ] ]

def tmplLines8 : List (List TPiece) :=
  [ [ .lit "      # to writing a set of files to a directory. This is only valid in two" ],
    [ .lit "      # known cases:" ],
    [ .lit "      # - For the java plugin, set this to \"jar\" to produce jars" ],
    [ .lit "      #   https://developers.google.com/protocol-buffers/docs/reference/java-generated#invocation" ],
    [ .lit "      # - For the descriptor_set plugin, this is required as using descriptor_set" ],
    [ .lit "      #   requires a file to be given instead of a directory." ],
    [ .vmark, .lit "      file_suffix: jar" ],
    [],
    [ .lit "      # descriptor_set is special, and uses the --descriptor_set_out flag on protoc." ],
    [ .lit "      # file_suffix is required, and the options include_imports and include_source_info" ],
    [ .lit "      # can be optionally set to add the flags --include_imports and --include_source-info." ],
    [ .lit "      # The include_imports and include_source_info options are not valid for any" ],
    [ .lit "      # other plugin name." ],
    [ .vmark, .lit "    - name: descriptor_set" ],
    [ .vmark, .lit "      output: ../../.gen/proto/descriptor" ],
    [ .vmark, .lit "      file_suffix: bin" ],
    [ .vmark, .lit "      include_imports: true" ],
    [ .vmark, .lit "      include_source_info: true" ] ]

/-- The tmpl template literal of cfginit.go, line by line.  Each line is
the list of its pieces; the lines are joined with newlines and the
literal has no trailing newline.  The list is assembled from chunks to
keep elaboration cheap. -/
def tmplLines : List (List TPiece) :=
  tmplLines0 ++ tmplLines1 ++ tmplLines2 ++ tmplLines3 ++ tmplLines4 ++ tmplLines5 ++ tmplLines6 ++ tmplLines7 ++ tmplLines8
/-- Join template lines with newlines (the template literal has no
trailing newline). -/
def joinLines (ls : List (List Char)) : List Char :=
  List.intercalate ['\n'] ls

/-- The character data produced by Generate: the template rendered with V
set to the comment marker when uncomment is false and to the empty string
when it is true, and ProtocVersion set to the supplied version.  The
html template escaper is applied to interpolated values; it is the
identity on both V values. -/
def generateChars (protocVersion : String) (uncomment : Bool) : List Char :=
  joinLines (tmplLines.map
    (renderLine (if uncomment then [] else ['#'])
      (htmlEscape protocVersion.data)))

/-- Embedding of cfginit.Generate.  Executing the fixed tmpl template on
a tmplData value cannot fail, so the error result of the Go function is
always nil; the rendered bytes are returned. -/
def Generate (protocVersion : String) (uncomment : Bool) :
    Except String String :=
  Except.ok (String.mk (generateChars protocVersion uncomment))

def pieceIsVmark : TPiece → Bool
  | .vmark => true
  | _ => false

def noVmark (l : List TPiece) : Bool :=
  l.all (fun p => !pieceIsVmark p)

/-- Structural well-placement of the comment marker in a template line:
at most one V action per line, placed at the start of the line or after
literal spaces only. -/
def vmarkShape : List TPiece → Bool
  | .vmark :: rest => noVmark rest
  | .lit s :: .vmark :: rest =>
    s.data.all (fun c => c = ' ') && noVmark rest
  | l => noVmark l

/-- Relation between an uncommented rendered line and its commented
counterpart: either the two lines are identical, or the commented line
inserts one comment marker after the leading spaces of the uncommented
line. -/
def commentPair (plain com : List Char) : Prop :=
  com = plain ∨
    ∃ a b, plain = a ++ b ∧ com = a ++ '#' :: b ∧ ∀ c ∈ a, c = ' '

/-- Relation between a template line and its pair of rendered lines
(uncommented output first, commented output second): a line with no V
action renders identically in both outputs, while a line with a V action
renders in the commented output with exactly one comment marker inserted
after its leading spaces, and in the uncommented output with that marker
absent. -/
def linePair (l : List TPiece) (pr : List Char × List Char) : Prop :=
  (noVmark l = true → pr.2 = pr.1) ∧
  (noVmark l = false →
    ∃ a b, pr.1 = a ++ b ∧ pr.2 = a ++ '#' :: b ∧ ∀ c ∈ a, c = ' ')

/-- Membership test for the regular expression of protoc versions:
one or more digits, a dot, one or more digits, a dot, one or more
digits. -/
def dropDigits : List Char → List Char
  | [] => []
  | c :: cs => if c.isDigit then dropDigits cs else c :: cs

def startsWithDigit : List Char → Bool
  | [] => false
  | c :: _ => c.isDigit

def expectDot : List Char → Option (List Char)
  | [] => none
  | c :: r => if c = '.' then some r else none

def isVersionFormat (s : String) : Bool :=
  startsWithDigit s.data &&
    (match expectDot (dropDigits s.data) with
     | none => false
     | some r1 =>
       startsWithDigit r1 &&
         (match expectDot (dropDigits r1) with
          | none => false
          | some r2 => startsWithDigit r2 && (dropDigits r2).isEmpty))

end Cfginit

namespace Lex

/-- Modelled from the spec: token kinds of the loss-preserving token
stream.  The lexer emits a complete token stream including whitespace and
comments; string literals, identifiers (including keywords and numeric
literals, which lex as identifier-class runs) and single-character
symbols make up the rest. -/
inductive TokenKind where
  | whitespace
  | comment
  | strLit
  | identifier
  | symbol
  deriving DecidableEq, Repr

/-- Modelled from the spec: a token carries its kind, its original text
and its location (line, column, byte offset).  Leading and trailing
comments are attached lazily by the parser and are therefore not part of
the token stream itself; comments appear as ordinary tokens. -/
structure Token where
  kind : TokenKind
  text : List Char
  line : Nat
  column : Nat
  offset : Nat
  deriving DecidableEq, Repr

def isWsChar (c : Char) : Bool :=
  c = ' ' || c = '\t' || c = '\n' || c = '\r'

def identChar (c : Char) : Bool :=
  c.isAlphanum || c = '_' || c = '.' || c = '-'

def isQuote (c : Char) : Bool :=
  c = '"' || c = Char.ofNat 39

/-- Modelled from the spec: consume the body of a string literal after
the opening quote, up to and including the closing quote, honouring
backslash escapes; fails on an unterminated literal.  Returns the
consumed characters and the rest. -/
def strBody (q : Char) : List Char → Option (List Char × List Char)
  | [] => none
  | c :: cs =>
    if c = q then some ([c], cs)
    else if c = '\\' then
      match cs with
      | [] => none
      | d :: ds =>
        match strBody q ds with
        | none => none
        | some (a, r) => some (c :: d :: a, r)
    else
      match strBody q cs with
      | none => none
      | some (a, r) => some (c :: a, r)

/-- Modelled from the spec: consume the remainder of a block comment
after the opening slash-star, up to and including the closing star-slash;
fails on an unterminated comment. -/
def blockRest : List Char → Option (List Char × List Char)
  | [] => none
  | c :: cs =>
    if c = '*' then
      match cs with
      | [] => none
      | d :: ds =>
        if d = '/' then some ([c, d], ds)
        else
          match blockRest (d :: ds) with
          | none => none
          | some (a, r) => some (c :: a, r)
    else
      match blockRest cs with
      | none => none
      | some (a, r) => some (c :: a, r)

/-- Modelled from the spec: take one token from the input.  Whitespace
runs, line comments, block comments, string literals and identifier runs
are munched maximally; any other character is a single-character symbol
token.  Returns the token kind, its text and the remaining input. -/
def takeToken : List Char → Option (TokenKind × List Char × List Char)
  | [] => none
  | c :: cs =>
    if isWsChar c then
      some (.whitespace, c :: cs.takeWhile isWsChar, cs.dropWhile isWsChar)
    else if c = '/' then
      match cs with
      | [] => some (.symbol, [c], cs)
      | d :: ds =>
        if d = '/' then
          some (.comment,
            c :: d :: ds.takeWhile (fun x => x ≠ '\n'),
            ds.dropWhile (fun x => x ≠ '\n'))
        else if d = '*' then
          match blockRest ds with
          | none => none
          | some (a, r) => some (.comment, c :: d :: a, r)
        else some (.symbol, [c], cs)
    else if isQuote c then
      match strBody c cs with
      | none => none
      | some (a, r) => some (.strLit, c :: a, r)
    else if identChar c then
      some (.identifier, c :: cs.takeWhile identChar, cs.dropWhile identChar)
    else
      some (.symbol, [c], cs)

/-- Advance a line-column pair over consumed characters. -/
def advance : Nat × Nat → List Char → Nat × Nat
  | lc, [] => lc
  | (line, col), c :: cs =>
    if c = '\n' then advance (line + 1, 1) cs else advance (line, col + 1) cs

/-- Fuelled lexer loop: take tokens until the input is exhausted.  Each
step consumes at least one character, so fuel equal to the input length
plus one always suffices. -/
def lexFuel : Nat → List Char → Nat → Nat → Nat → Option (List Token)
  | 0, _, _, _, _ => none
  | _ + 1, [], _, _, _ => some []
  | fuel + 1, c :: cs, line, col, off =>
    match takeToken (c :: cs) with
    | none => none
    | some (k, a, r) =>
      let lc := advance (line, col) a
      match lexFuel fuel r lc.1 lc.2 (off + a.length) with
      | none => none
      | some ts =>
        some ({ kind := k, text := a, line := line, column := col,
                offset := off } :: ts)

/-- Modelled from the spec: lex a source byte string into the complete
token stream, or fail on an unterminated string literal or block
comment. -/
def lex (src : List Char) : Option (List Token) :=
  lexFuel (src.length + 1) src 1 1 0

/-- A small source file used as concrete witness input. -/
def demoSrc : List Char :=
  "// hi\nsyntax = \"proto3\";\n/* b */\nmessage Foo { int32 a = 1; }\n".data

end Lex

namespace Fmt

/-- A token reduced to its kind and text; the parser and printer of the
format engine work up to token locations. -/
structure TokText where
  kind : Lex.TokenKind
  text : List Char
  deriving DecidableEq, Repr

def toTokText (t : Lex.Token) : TokText :=
  { kind := t.kind, text := t.text }

/-- The meaningful token stream: whitespace tokens dropped, comments
kept. -/
def meaningfulToks (ts : List Lex.Token) : List TokText :=
  (ts.filter (fun t => !(t.kind == Lex.TokenKind.whitespace))).map toTokText

/-- One emitted piece of formatted output: a whitespace run or a token. -/
inductive Emi where
  | ws (w : List Char)
  | tok (t : TokText)
  deriving DecidableEq, Repr

def emiChars : Emi → List Char
  | .ws w => w
  | .tok t => t.text

def renderE (es : List Emi) : List Char :=
  (es.map emiChars).flatten

def toksE (es : List Emi) : List TokText :=
  es.filterMap (fun e => match e with
    | .tok t => some t
    | .ws _ => none)

def isSemiTok (t : TokText) : Bool :=
  t.kind == Lex.TokenKind.symbol && t.text == [';']

def isOpenTok (t : TokText) : Bool :=
  t.kind == Lex.TokenKind.symbol && t.text == ['{']

def isCloseTok (t : TokText) : Bool :=
  t.kind == Lex.TokenKind.symbol && t.text == ['}']

def isCommentTok (t : TokText) : Bool :=
  t.kind == Lex.TokenKind.comment

def headTok (t : TokText) : Bool :=
  !(isSemiTok t || isOpenTok t || isCloseTok t || isCommentTok t)

def indentOf (n : Nat) : List Char := List.replicate (2 * n) ' '

def leadOf (blank : Bool) (ind : Nat) : List Char :=
  (if blank then ['\n', '\n'] else ['\n']) ++ indentOf ind

def leadFor (sep : Option Bool) (ind : Nat) : List Char :=
  match sep with
  | none => []
  | some blank => leadOf blank ind

def spacedE : List TokText → List Emi
  | [] => []
  | [t] => [Emi.tok t]
  | t :: t2 :: ts => Emi.tok t :: Emi.ws [' '] :: spacedE (t2 :: ts)

/-- One output line: optional leading whitespace, the main tokens joined
by single spaces, and an optional trailing token attached without a
space (the statement terminator). -/
def lineE (lead : List Char) (main : List TokText) (tailT : Option TokText) :
    List Emi :=
  (if lead.isEmpty then [] else [Emi.ws lead]) ++ spacedE main ++
    (match tailT with
     | some t => [Emi.tok t]
     | none => [])

/-- One line-emission step of the canonical printer, parameterized by
the recursive continuation. -/
def fmtStep (rec : Nat → Option Bool → List TokText → Option (List Emi))
    (ind : Nat) (sep : Option Bool) (ts : List TokText) :
    Option (List Emi) :=
  match ts with
  | [] =>
    if ind = 0 then
      match sep with
      | none => some []
      | some _ => some [Emi.ws ['\n']]
    else none
  | t :: ts =>
    if isCommentTok t then
      match rec ind (some false) ts with
      | none => none
      | some es => some (lineE (leadFor sep ind) [t] none ++ es)
    else if isCloseTok t then
      match ind with
      | 0 => none
      | ind2 + 1 =>
        match rec ind2 (some (decide (ind2 = 0))) ts with
        | none => none
        | some es => some (lineE (leadFor sep ind2) [t] none ++ es)
    else
      match (t :: ts).dropWhile headTok with
      | [] => none
      | d :: rest2 =>
        if isSemiTok d then
          match rec ind (some (decide (ind = 0))) rest2 with
          | none => none
          | some es =>
            some (lineE (leadFor sep ind) ((t :: ts).takeWhile headTok)
              (some d) ++ es)
        else if isOpenTok d then
          match rec (ind + 1) (some false) rest2 with
          | none => none
          | some es =>
            some (lineE (leadFor sep ind)
              ((t :: ts).takeWhile headTok ++ [d]) none ++ es)
        else none

/-- Modelled from the spec: the canonical printer pass over the
meaningful token stream, by fuel. -/
def fmtLines : Nat → Nat → Option Bool → List TokText → Option (List Emi)
  | 0, _, _, _ => none
  | fuel + 1, ind, sep, ts => fmtStep (fmtLines fuel) ind sep ts

/-- Modelled from the spec: the format engine; lex the source, drop
whitespace tokens, and re-emit the canonical token layout.  Fails on
input the lexer or the pass rejects. -/
def format (src : List Char) : Option (List Char) :=
  match Lex.lex src with
  | none => none
  | some ts =>
    match fmtLines ((meaningfulToks ts).length + 1) 0 none
        (meaningfulToks ts) with
    | none => none
    | some es => some (renderE es)

/-- A munching function is self delimiting on a body when it consumes
exactly that body whatever follows. -/
def selfDelim (munch : List Char → Option (List Char × List Char))
    (body : List Char) : Prop :=
  ∀ rest, munch (body ++ rest) = some (body, rest)

/-- Invariants of a meaningful token as produced by the lexer, sufficient
for the token text to re-lex to the same token. -/
def goodTok (t : TokText) : Prop :=
  match t.kind with
  | .whitespace => False
  | .identifier => t.text ≠ [] ∧ ∀ c ∈ t.text, Lex.identChar c = true
  | .symbol => ∃ c, t.text = [c] ∧ Lex.isWsChar c = false ∧
      Lex.isQuote c = false ∧ Lex.identChar c = false
  | .strLit => ∃ q body, t.text = q :: body ∧ Lex.isQuote q = true ∧
      selfDelim (Lex.strBody q) body
  | .comment =>
      (∃ body, t.text = '/' :: '/' :: body ∧ ∀ c ∈ body, c ≠ '\n') ∨
      (∃ body, t.text = '/' :: '*' :: body ∧ selfDelim Lex.blockRest body)

/-- The character allowed to follow a token without changing how the
token re-lexes. -/
def nextCharOK (t : TokText) (next : Option Char) : Prop :=
  match next with
  | none => True
  | some c =>
    (t.kind = Lex.TokenKind.identifier → Lex.identChar c = false) ∧
    (t.kind = Lex.TokenKind.symbol → t.text = ['/'] → c ≠ '/' ∧ c ≠ '*') ∧
    (t.kind = Lex.TokenKind.comment → t.text.take 2 = ['/', '/'] →
      c = '\n')

/-- The first character rendered by an emission list, falling back to a
continuation character. -/
def chainCharsE (es : List Emi) (nx : Option Char) : Option Char :=
  match (renderE es).head? with
  | some c => some c
  | none => nx

/-- Well-separated emission list, relative to the first character that
follows the list: whitespace runs are nonempty, consist of whitespace
and are followed by a non-whitespace character; every token satisfies
its separation condition against what follows it. -/
def goodEW : List Emi → Option Char → Prop
  | [], _ => True
  | Emi.ws w :: es, nx =>
    w ≠ [] ∧ (∀ c ∈ w, Lex.isWsChar c = true) ∧
    (∀ c, chainCharsE es nx = some c → Lex.isWsChar c = false) ∧
    goodEW es nx
  | Emi.tok t :: es, nx =>
    goodTok t ∧ nextCharOK t (chainCharsE es nx) ∧ goodEW es nx

def goodE (es : List Emi) : Prop := goodEW es none

end Fmt

namespace Lint

/-- Modelled from the spec: a registered lint rule has a unique id and a
group membership (subset of the named groups google, uber1, uber2). -/
structure LintRule where
  id : String
  groups : List String
  deriving DecidableEq, Repr

/-- Modelled from the spec: an ignores entry pairs a rule id with the
files it is ignored for. -/
structure FileIgnore where
  id : String
  files : List String
  deriving DecidableEq, Repr

/-- Modelled from the spec: the lint.rules config section with the
no_default switch and the add and remove rule id lists. -/
structure LintRulesCfg where
  noDefault : Bool
  add : List String
  remove : List String
  deriving DecidableEq, Repr

/-- Modelled from the spec: the lint config section with the optional
group, the ignores and the rules subsection. -/
structure LintCfg where
  group : Option String
  ignores : List FileIgnore
  rules : LintRulesCfg
  deriving DecidableEq, Repr

/-- The default lint group. -/
def defaultGroupName : String := "uber1"

/-- The rule ids of a named group: the registered rules whose group
membership contains the group. -/
def groupRules (registry : List LintRule) (g : String) : List String :=
  (registry.filter (fun rule => rule.groups.contains g)).map
    (fun rule => rule.id)

/-- Whether a rule id names a registered rule. -/
def isRegistered (registry : List LintRule) (id : String) : Bool :=
  registry.any (fun rule => rule.id = id)

/-- Modelled from the spec: the starting rule set.  If lint.group is set
start from that group, ignoring no_default; else if no_default start
empty; else start from the default group uber1. -/
def baseRules (registry : List LintRule) (cfg : LintCfg) : List String :=
  match cfg.group with
  | some g => groupRules registry g
  | none =>
    if cfg.rules.noDefault then []
    else groupRules registry defaultGroupName

/-- Whether a rule id is ignored for the given file. -/
def ignoredFor (cfg : LintCfg) (file id : String) : Bool :=
  cfg.ignores.any (fun ig => ig.id = id && ig.files.contains file)

/-- A config-invalid error naming the offending rule id. -/
inductive ConfigError where
  | configInvalid (id : String)
  deriving DecidableEq, Repr

/-- Modelled from the spec: effective rule set construction.  Unknown
rule ids referenced by add or remove give a config-invalid error;
otherwise the rules of add are appended to the base set (without
duplicating ids already present), the rules of remove are removed and
the rules ignored for the file are removed. -/
def effectiveRules (registry : List LintRule) (cfg : LintCfg)
    (file : String) : Except ConfigError (List String) :=
  match (cfg.rules.add ++ cfg.rules.remove).find?
      (fun id => !isRegistered registry id) with
  | some id => Except.error (ConfigError.configInvalid id)
  | none =>
    let base := baseRules registry cfg
    let added := base ++ cfg.rules.add.filter (fun id => !base.contains id)
    let removed := added.filter (fun id => !cfg.rules.remove.contains id)
    Except.ok (removed.filter (fun id => !ignoredFor cfg file id))

/-- A small registry used as concrete witness input. -/
def demoRegistry : List LintRule :=
  [ { id := "ENUM_NAMES_CAPITALIZED", groups := [ "google", "uber1" ] },
    { id := "RPC_NAMES_CAMEL_CASE", groups := [ "uber1" ] },
    { id := "SYNTAX_PROTO3", groups := [ "uber2" ] } ]

/-- A small lint config used as concrete witness input. -/
def demoLintCfg : LintCfg :=
  { group := none
    ignores := [ { id := "ENUM_NAMES_CAPITALIZED",
                   files := [ "idl/foo.proto" ] } ]
    rules := { noDefault := false
               add := [ "SYNTAX_PROTO3" ]
               remove := [ "RPC_NAMES_CAMEL_CASE" ] } }

/-- A lint config referencing an unregistered rule id, used as concrete
witness input for the config-invalid error case. -/
def demoBadLintCfg : LintCfg :=
  { group := none
    ignores := []
    rules := { noDefault := false
               add := [ "NOT_A_RULE" ]
               remove := [] } }

end Lint

namespace Breaking

/-- Modelled from the spec: field labels. -/
inductive FieldLabel where
  | optionalLabel
  | requiredLabel
  | repeatedLabel
  deriving DecidableEq, Repr

/-- Modelled from the spec: a message field with its name, number, type
name, label, and whether it is a map field (map fields are repeated
fields of a synthetic map-entry message type, so the map versus repeated
message distinction is carried as a flag). -/
structure FieldD where
  name : String
  number : Nat
  typeName : String
  label : FieldLabel
  isMapField : Bool
  deriving DecidableEq, Repr

/-- Modelled from the spec: a message, keyed by its fully qualified name
(nested messages appear in the same flat list under their full names),
with its fields and reserved field numbers. -/
structure MessageD where
  fullName : String
  fields : List FieldD
  reservedNumbers : List Nat
  deriving DecidableEq, Repr

structure EnumValueD where
  name : String
  number : Int
  deriving DecidableEq, Repr

/-- Modelled from the spec: an enum, keyed by its fully qualified name,
with its values and reserved value numbers. -/
structure EnumD where
  fullName : String
  values : List EnumValueD
  reservedNumbers : List Int
  deriving DecidableEq, Repr

structure RpcD where
  name : String
  requestType : String
  responseType : String
  clientStreaming : Bool
  serverStreaming : Bool
  deriving DecidableEq, Repr

structure ServiceD where
  fullName : String
  rpcs : List RpcD
  deriving DecidableEq, Repr

/-- Modelled from the spec: one file of a FileDescriptorSet with its
name, package, imports and declared entities. -/
structure FileD where
  name : String
  packageName : String
  imports : List String
  messages : List MessageD
  enums : List EnumD
  services : List ServiceD
  deriving DecidableEq, Repr

/-- Modelled from the spec: a package segment of the form v, digits,
beta, digits. -/
def isVBetaSegment (seg : String) : Bool :=
  match seg.data with
  | 'v' :: rest =>
    decide ((rest.takeWhile Char.isDigit).length > 0) &&
      (match rest.dropWhile Char.isDigit with
       | 'b' :: 'e' :: 't' :: 'a' :: r3 =>
         decide (r3.length > 0) && r3.all Char.isDigit
       | _ => false)
  | _ => false

/-- Modelled from the spec: beta detection; a package is beta if its last
segment is a vNbetaN segment or it has a beta segment. -/
def isBeta (pkg : String) : Bool :=
  (match (pkg.splitOn ".").getLast? with
   | some seg => isVBetaSegment seg
   | none => false) ||
  (pkg.splitOn ".").any (fun seg => seg == "beta")

/-- A break-check failure: the violated rule and the path of the entity
it concerns. -/
structure Failure where
  ruleID : String
  path : String
  deriving DecidableEq, Repr

/-- Modelled from the spec: the wire-compatible integer promotions under
which a changed field type is not breaking.  The spec does not enumerate
the list; it is modelled as the 32-to-64-bit widenings of the matching
signedness. -/
def wireCompatible (fromType toType : String) : Bool :=
  fromType == toType ||
    (fromType == "int32" && toType == "int64") ||
    (fromType == "uint32" && toType == "uint64") ||
    (fromType == "sint32" && toType == "sint64")

/-- Modelled from the spec: field comparison.  A changed type outside the
wire-compatible promotions is breaking; a changed name is reported; a
changed label is breaking; map versus repeated message is breaking. -/
def checkField (msgName : String) (fromF toF : FieldD) : List Failure :=
  (if !wireCompatible fromF.typeName toF.typeName then
    [ { ruleID := "FIELD_SAME_TYPE", path := msgName } ] else [])
  ++ (if fromF.name != toF.name then
    [ { ruleID := "FIELD_SAME_NAME", path := msgName } ] else [])
  ++ (if fromF.label != toF.label then
    [ { ruleID := "FIELD_SAME_LABEL", path := msgName } ] else [])
  ++ (if fromF.isMapField != toF.isMapField then
    [ { ruleID := "FIELD_SAME_KIND", path := msgName } ] else [])

/-- Modelled from the spec: message comparison.  A removed field number
is breaking unless reserved in the new message; matched field numbers are
compared fieldwise; a required field added is breaking. -/
def checkMessage (fromM toM : MessageD) : List Failure :=
  (fromM.fields.flatMap fun f =>
    match toM.fields.find? (fun g => g.number == f.number) with
    | none =>
      if toM.reservedNumbers.contains f.number then []
      else [ { ruleID := "MESSAGE_FIELDS_NOT_REMOVED",
               path := fromM.fullName } ]
    | some g => checkField fromM.fullName f g)
  ++ (toM.fields.flatMap fun g =>
    match fromM.fields.find? (fun f => f.number == g.number) with
    | none =>
      if g.label = FieldLabel.requiredLabel then
        [ { ruleID := "FIELD_REQUIRED_NOT_ADDED", path := toM.fullName } ]
      else []
    | some _ => [])

/-- Modelled from the spec: enum comparison.  A removed value not
reserved in the new enum is breaking; a changed value number is
breaking. -/
def checkEnum (fromE toE : EnumD) : List Failure :=
  fromE.values.flatMap fun v =>
    match toE.values.find? (fun w => w.name == v.name) with
    | none =>
      if toE.reservedNumbers.contains v.number then []
      else [ { ruleID := "ENUM_VALUES_NOT_REMOVED", path := fromE.fullName } ]
    | some w =>
      if v.number != w.number then
        [ { ruleID := "ENUM_VALUE_SAME_NUMBER", path := fromE.fullName } ]
      else []

/-- Modelled from the spec: rpc comparison.  A changed request or
response type is breaking; changing client or server streaming is
breaking. -/
def checkRpc (serviceName : String) (fromR toR : RpcD) : List Failure :=
  (if fromR.requestType != toR.requestType then
    [ { ruleID := "RPC_SAME_REQUEST_TYPE", path := serviceName } ] else [])
  ++ (if fromR.responseType != toR.responseType then
    [ { ruleID := "RPC_SAME_RESPONSE_TYPE", path := serviceName } ] else [])
  ++ (if fromR.clientStreaming != toR.clientStreaming then
    [ { ruleID := "RPC_SAME_CLIENT_STREAMING", path := serviceName } ] else [])
  ++ (if fromR.serverStreaming != toR.serverStreaming then
    [ { ruleID := "RPC_SAME_SERVER_STREAMING", path := serviceName } ] else [])

/-- Modelled from the spec: service comparison.  A removed rpc is
breaking; matched rpcs are compared. -/
def checkService (fromS toS : ServiceD) : List Failure :=
  fromS.rpcs.flatMap fun r =>
    match toS.rpcs.find? (fun r2 => r2.name == r.name) with
    | none => [ { ruleID := "RPCS_NOT_REMOVED", path := fromS.fullName } ]
    | some r2 => checkRpc fromS.fullName r r2

/-- Modelled from the spec: comparison of two files with the same name:
removed messages, enums and services are breaking, matched ones are
compared. -/
def checkFilePair (fromF toF : FileD) : List Failure :=
  (fromF.messages.flatMap fun m =>
    match toF.messages.find? (fun m2 => m2.fullName == m.fullName) with
    | none => [ { ruleID := "MESSAGES_NOT_REMOVED", path := m.fullName } ]
    | some m2 => checkMessage m m2)
  ++ (fromF.enums.flatMap fun e =>
    match toF.enums.find? (fun e2 => e2.fullName == e.fullName) with
    | none => [ { ruleID := "ENUMS_NOT_REMOVED", path := e.fullName } ]
    | some e2 => checkEnum e e2)
  ++ (fromF.services.flatMap fun s =>
    match toF.services.find? (fun s2 => s2.fullName == s.fullName) with
    | none => [ { ruleID := "SERVICES_NOT_REMOVED", path := s.fullName } ]
    | some s2 => checkService s s2)

/-- Modelled from the spec: with allow-beta-deps unset, a non-beta file
that imports a beta file is breaking.  Read as flagging newly introduced
beta imports (an import already present in the corresponding old file is
not flagged), consistent with the break-symmetry property the spec
states for identical inputs. -/
def checkBetaDeps (allowBetaDeps : Bool) (fromSet toSet : List FileD) :
    List Failure :=
  toSet.flatMap fun tf =>
    if allowBetaDeps || isBeta tf.packageName then []
    else
      tf.imports.flatMap fun imp =>
        match toSet.find? (fun g => g.name == imp) with
        | none => []
        | some impF =>
          if !isBeta impF.packageName then []
          else
            match fromSet.find? (fun g => g.name == tf.name) with
            | some ff =>
              if ff.imports.contains imp then []
              else [ { ruleID := "FILE_NO_NEW_BETA_DEPS", path := tf.name } ]
            | none => [ { ruleID := "FILE_NO_NEW_BETA_DEPS", path := tf.name } ]

/-- Modelled from the spec: the break checker.  Removing a file whose
package is not beta (or any file when include-beta is set) is breaking;
files present in both sets are compared pairwise; beta dependencies are
checked on the new set. -/
def checkBreak (includeBeta allowBetaDeps : Bool)
    (fromSet toSet : List FileD) : List Failure :=
  (fromSet.flatMap fun f =>
    match toSet.find? (fun g => g.name == f.name) with
    | none =>
      if isBeta f.packageName && !includeBeta then []
      else [ { ruleID := "FILES_NOT_REMOVED", path := f.name } ]
    | some g => checkFilePair f g)
  ++ checkBetaDeps allowBetaDeps fromSet toSet

/-- No-duplicate keys, by an arbitrary key function. -/
def nodupKeys {α β : Type} [BEq β] (key : α → β) : List α → Bool
  | [] => true
  | x :: xs => !(xs.any (fun y => key y == key x)) && nodupKeys key xs

/-- Well-formedness of a descriptor set: unique file names, and within
each file unique message, enum and service names, unique field numbers
per message, unique value names per enum and unique rpc names per
service, as protoc guarantees for compiled descriptor sets. -/
def wellFormedFile (f : FileD) : Bool :=
  nodupKeys (fun m : MessageD => m.fullName) f.messages &&
  f.messages.all (fun m => nodupKeys (fun fl : FieldD => fl.number) m.fields) &&
  nodupKeys (fun e : EnumD => e.fullName) f.enums &&
  f.enums.all (fun e => nodupKeys (fun v : EnumValueD => v.name) e.values) &&
  nodupKeys (fun s : ServiceD => s.fullName) f.services &&
  f.services.all (fun s => nodupKeys (fun r : RpcD => r.name) s.rpcs)

def wellFormed (s : List FileD) : Bool :=
  nodupKeys (fun f : FileD => f.name) s && s.all wellFormedFile

/-- A small descriptor set used as concrete witness input. -/
def demoSet : List FileD :=
  [ { name := "foo.proto"
      packageName := "uber.foo.v1"
      imports := [ "dep.proto" ]
      messages :=
        [ { fullName := "uber.foo.v1.Foo"
            fields :=
              [ { name := "a", number := 1, typeName := "int32",
                  label := FieldLabel.optionalLabel, isMapField := false } ]
            reservedNumbers := [ 2 ] } ]
      enums :=
        [ { fullName := "uber.foo.v1.Kind"
            values := [ { name := "KIND_INVALID", number := 0 } ]
            reservedNumbers := [] } ]
      services :=
        [ { fullName := "uber.foo.v1.FooService"
            rpcs :=
              [ { name := "Get", requestType := "GetRequest",
                  responseType := "GetResponse", clientStreaming := false,
                  serverStreaming := false } ] } ] },
    { name := "dep.proto"
      packageName := "uber.dep.v1beta1"
      imports := []
      messages := []
      enums := []
      services := [] } ]

end Breaking

/-! Theorems for the command-surface claims. -/

namespace Cmd

theorem filterMap_ite {α β : Type} (g : α → Option β) (c : Prop)
    [Decidable c] (a b : List α) :
    List.filterMap g (if c then a else b) =
      if c then List.filterMap g a else List.filterMap g b :=
  apply_ite (List.filterMap g) c a b

/-- Claim C4: for every command invocation, the exit code is 0 when there
are no failures, 1 for diagnostic failures, 2 for operational errors; no
exit code outside 0, 1, 2 is produced, and when the runner returns no
error the exit code is left at 0. -/
theorem c4_exit_codes (α : Type) (res : Except ErrorKind α)
    (f : α → Option ErrorKind) :
    (checkCmd res f = 0 ∨ checkCmd res f = 1 ∨ checkCmd res f = 2) ∧
    (∀ r, res = Except.ok r → f r = none → checkCmd res f = 0) ∧
    (∀ e, res = Except.error e → isDiagnosticKind e = true → checkCmd res f = 1) ∧
    (∀ e, res = Except.error e → isDiagnosticKind e = false → checkCmd res f = 2) ∧
    (∀ r e, res = Except.ok r → f r = some e → isDiagnosticKind e = true → checkCmd res f = 1) ∧
    (∀ r e, res = Except.ok r → f r = some e → isDiagnosticKind e = false → checkCmd res f = 2) := by
  refine ⟨?_, ?_, ?_, ?_, ?_, ?_⟩
  · match res with
    | Except.error e =>
      simp only [checkCmd, printAndGetErrorExitCode]
      split_ifs <;> simp
    | Except.ok r =>
      match h : f r with
      | some e =>
        simp only [checkCmd, h, printAndGetErrorExitCode]
        split_ifs <;> simp
      | none => simp [checkCmd, h]
  · intro r hres hf
    subst hres
    simp [checkCmd, hf]
  · intro e hres hd
    subst hres
    simp [checkCmd, printAndGetErrorExitCode, hd]
  · intro e hres hd
    subst hres
    simp [checkCmd, printAndGetErrorExitCode, hd]
  · intro r e hres hf hd
    subst hres
    simp [checkCmd, hf, printAndGetErrorExitCode, hd]
  · intro r e hres hf hd
    subst hres
    simp [checkCmd, hf, printAndGetErrorExitCode, hd]

/-- Witness for C4: a run whose runner is built successfully and whose
command function reports no error exits with code 0. -/
theorem c4_exit_codes_witness :
    checkCmd (Except.ok ()) (fun _ : Unit => none) = 0 :=
  (c4_exit_codes Unit (Except.ok ()) (fun _ : Unit => none)).2.1 () rfl rfl

/-- Claim C6 counterexample: not every command accepts an optional
dirOrFile positional argument.  The version and cache delete templates
use NoArgs and reject one argument, and the create template uses
MinimumNArgs 1 and rejects zero arguments. -/
theorem c6_counterexample :
    versionCmdTemplate ∈ allCmdTemplates ∧
    argsAccept versionCmdTemplate.args 1 = false ∧
    cacheDeleteCmdTemplate ∈ allCmdTemplates ∧
    argsAccept cacheDeleteCmdTemplate.args 1 = false ∧
    createCmdTemplate ∈ allCmdTemplates ∧
    argsAccept createCmdTemplate.args 0 = false := by
  decide

/-- Claim C6 amended: the thirteen dirOrFile commands (all, compile,
generate, lint, format, files, break check, cache update, config init,
inspect packages, inspect package-deps, inspect package-importers, grpc)
accept zero or one positional argument and default to the working
directory when it is omitted; create requires at least one file argument;
version and cache delete accept no positional arguments. -/
theorem c6_amended :
    (∀ t, t ∈ dirOrFileCmdTemplates →
      argsAccept t.args 0 = true ∧ argsAccept t.args 1 = true ∧
      argsAccept t.args 2 = false) ∧
    (∀ k, argsAccept createCmdTemplate.args k = true ↔ 1 ≤ k) ∧
    (∀ k, argsAccept versionCmdTemplate.args k = true ↔ k = 0) ∧
    (∀ k, argsAccept cacheDeleteCmdTemplate.args k = true ↔ k = 0) ∧
    (∀ workDirPath, resolveDirOrFile workDirPath [] = workDirPath) ∧
    (∀ workDirPath a rest, resolveDirOrFile workDirPath (a :: rest) = a) := by
  refine ⟨?_, ?_, ?_, ?_, fun _ => rfl, fun _ _ _ => rfl⟩
  · intro t ht
    fin_cases ht <;> exact ⟨rfl, rfl, rfl⟩
  · intro k
    simp [createCmdTemplate, argsAccept]
  · intro k
    simp [versionCmdTemplate, argsAccept]
  · intro k
    simp [cacheDeleteCmdTemplate, argsAccept]

/-- Witness for the amended C6: the lint command accepts zero or one
positional argument, and the empty argument list resolves to the working
directory. -/
theorem c6_amended_witness :
    (argsAccept lintCmdTemplate.args 0 = true ∧
     argsAccept lintCmdTemplate.args 1 = true ∧
     argsAccept lintCmdTemplate.args 2 = false) ∧
    argsAccept createCmdTemplate.args 1 = true ∧
    resolveDirOrFile "/work" [] = "/work" :=
  ⟨c6_amended.1 lintCmdTemplate (by decide),
   (c6_amended.2.1 1).mpr (by decide),
   c6_amended.2.2.2.2.1 "/work"⟩

/-- Claim C7: a non-empty config-data flag yields a RunnerWithConfigData
option and the runner then uses the inline data, overriding any on-disk
file; an empty config-data flag yields no such option and the on-disk
resolution is used unchanged. -/
theorem c7_config_data (develMode : Bool) (f : Flags) :
    (f.configData ≠ "" →
      runnerConfigSource (getRunnerOptions develMode f) =
        ConfigSource.inlineData f.configData) ∧
    (f.configData = "" →
      runnerConfigSource (getRunnerOptions develMode f) =
        ConfigSource.onDisk) := by
  constructor
  · intro h
    simp [runnerConfigSource, getRunnerOptions, List.filterMap_append,
      filterMap_ite, h, List.filterMap_cons]
  · intro h
    simp [runnerConfigSource, getRunnerOptions, List.filterMap_append,
      filterMap_ite, h, List.filterMap_cons]

/-- Witness for C7: inline configuration data overrides the on-disk file
for a concrete flags value, and with empty inline data the on-disk
resolution is used. -/
theorem c7_config_data_witness :
    runnerConfigSource
        (getRunnerOptions false { configData := "lint:\n  group: google" }) =
      ConfigSource.inlineData "lint:\n  group: google" ∧
    runnerConfigSource (getRunnerOptions false {}) = ConfigSource.onDisk :=
  ⟨(c7_config_data false { configData := "lint:\n  group: google" }).1
      (by decide),
   (c7_config_data false {}).2 rfl⟩

/-- Claim C8: cache delete removes only the default cache root derived
from XDG_CACHE_HOME or HOME; the delete target never depends on the
cache-path flag, and the delete command template does not even bind the
cache-path flag. -/
theorem c8_cache_delete :
    cacheDeleteCmdTemplate.binds = [] ∧
    (FlagName.cachePath ∉ cacheDeleteCmdTemplate.binds) ∧
    (∀ env f, cacheDeleteTarget env f = defaultCacheRoot env) ∧
    (∀ env f p,
      cacheDeleteTarget env { f with cachePath := p } =
        cacheDeleteTarget env f) := by
  refine ⟨rfl, by decide, fun _ _ => rfl, fun _ _ _ => rfl⟩

end Cmd

/-! Theorems for the config-init template claims. -/

namespace Cfginit

theorem renderLine_cons (vc ver : List Char) (p : TPiece) (l : List TPiece) :
    renderLine vc ver (p :: l) = renderPiece vc ver p ++ renderLine vc ver l := by
  simp [renderLine]

theorem render_noVmark (vc vc' ver : List Char) (l : List TPiece)
    (h : noVmark l = true) : renderLine vc ver l = renderLine vc' ver l := by
  induction l with
  | nil => rfl
  | cons p rest ih =>
    rw [noVmark, List.all_cons, Bool.and_eq_true] at h
    rw [renderLine_cons, renderLine_cons, ih h.2]
    cases p with
    | lit s => rfl
    | vmark => simp [pieceIsVmark] at h
    | pver => rfl

theorem commentPair_line (ver : List Char) (l : List TPiece)
    (h : vmarkShape l = true) :
    commentPair (renderLine [] ver l) (renderLine ['#'] ver l) := by
  rcases l with _ | ⟨p, rest⟩
  · exact Or.inl rfl
  · cases p with
    | vmark =>
      have hnv : noVmark rest = true := h
      refine Or.inr ⟨[], renderLine [] ver rest, ?_, ?_, by simp⟩
      · rw [renderLine_cons]; rfl
      · rw [renderLine_cons, render_noVmark ['#'] [] ver rest hnv]; rfl
    | pver =>
      have hnv : noVmark (TPiece.pver :: rest) = true := h
      exact Or.inl (render_noVmark ['#'] [] ver _ hnv)
    | lit s =>
      rcases rest with _ | ⟨q, rest2⟩
      · have hnv : noVmark [TPiece.lit s] = true := h
        exact Or.inl (render_noVmark ['#'] [] ver _ hnv)
      · cases q with
        | vmark =>
          have hsh : (s.data.all (fun c => c = ' ') && noVmark rest2) = true := h
          rw [Bool.and_eq_true] at hsh
          refine Or.inr ⟨s.data, renderLine [] ver rest2, ?_, ?_, ?_⟩
          · rw [renderLine_cons, renderLine_cons, renderPiece]
            simp [renderPiece]
          · rw [renderLine_cons, renderLine_cons, renderPiece,
              render_noVmark ['#'] [] ver rest2 hsh.2]
            simp [renderPiece]
          · intro c hc
            have := List.all_eq_true.mp hsh.1 c hc
            exact of_decide_eq_true this
        | lit t =>
          have hnv : noVmark (TPiece.lit s :: TPiece.lit t :: rest2) = true := h
          exact Or.inl (render_noVmark ['#'] [] ver _ hnv)
        | pver =>
          have hnv : noVmark (TPiece.lit s :: TPiece.pver :: rest2) = true := h
          exact Or.inl (render_noVmark ['#'] [] ver _ hnv)

theorem forall₂_commentPair (ver : List Char) (ls : List (List TPiece))
    (h : ls.all vmarkShape = true) :
    List.Forall₂ commentPair (ls.map (renderLine [] ver))
      (ls.map (renderLine ['#'] ver)) := by
  induction ls with
  | nil => simp
  | cons l rest ih =>
    rw [List.all_cons, Bool.and_eq_true] at h
    exact List.Forall₂.cons (commentPair_line ver l h.1) (ih h.2)

theorem tmpl_all_shape : tmplLines.all vmarkShape = true := by decide

theorem linePair_line (ver : List Char) (l : List TPiece)
    (h : vmarkShape l = true) :
    linePair l (renderLine [] ver l, renderLine ['#'] ver l) := by
  constructor
  · intro hnv
    exact render_noVmark ['#'] [] ver l hnv
  · intro hv
    rcases l with _ | ⟨p, rest⟩
    · exact absurd hv (by simp [noVmark])
    · cases p with
      | vmark =>
        have hnv : noVmark rest = true := h
        refine ⟨[], renderLine [] ver rest, ?_, ?_, by simp⟩
        · show renderLine [] ver (TPiece.vmark :: rest) =
            [] ++ renderLine [] ver rest
          rw [renderLine_cons]; rfl
        · show renderLine ['#'] ver (TPiece.vmark :: rest) =
            [] ++ '#' :: renderLine [] ver rest
          rw [renderLine_cons, render_noVmark ['#'] [] ver rest hnv]; rfl
      | pver =>
        have hnv : noVmark (TPiece.pver :: rest) = true := h
        rw [hnv] at hv
        exact absurd hv (by simp)
      | lit s =>
        rcases rest with _ | ⟨q, rest2⟩
        · have hnv : noVmark [TPiece.lit s] = true := h
          rw [hnv] at hv
          exact absurd hv (by simp)
        · cases q with
          | vmark =>
            have hsh : (s.data.all (fun c => c = ' ') &&
                noVmark rest2) = true := h
            rw [Bool.and_eq_true] at hsh
            refine ⟨s.data, renderLine [] ver rest2, ?_, ?_, ?_⟩
            · show renderLine [] ver (TPiece.lit s :: TPiece.vmark :: rest2) =
                s.data ++ renderLine [] ver rest2
              rw [renderLine_cons, renderLine_cons, renderPiece]
              simp [renderPiece]
            · show renderLine ['#'] ver
                  (TPiece.lit s :: TPiece.vmark :: rest2) =
                s.data ++ '#' :: renderLine [] ver rest2
              rw [renderLine_cons, renderLine_cons, renderPiece,
                render_noVmark ['#'] [] ver rest2 hsh.2]
              simp [renderPiece]
            · intro c hc
              have := List.all_eq_true.mp hsh.1 c hc
              exact of_decide_eq_true this
          | lit t =>
            have hnv : noVmark (TPiece.lit s :: TPiece.lit t :: rest2) =
                true := h
            rw [hnv] at hv
            exact absurd hv (by simp)
          | pver =>
            have hnv : noVmark (TPiece.lit s :: TPiece.pver :: rest2) =
                true := h
            rw [hnv] at hv
            exact absurd hv (by simp)

theorem forall₂_linePair (ver : List Char) (ls : List (List TPiece))
    (h : ls.all vmarkShape = true) :
    List.Forall₂ linePair ls
      ((ls.map (renderLine [] ver)).zip (ls.map (renderLine ['#'] ver))) := by
  induction ls with
  | nil => simp
  | cons l rest ih =>
    rw [List.all_cons, Bool.and_eq_true] at h
    rw [List.map_cons, List.map_cons, List.zip_cons_cons]
    exact List.Forall₂.cons (linePair_line ver l h.1) (ih h.2)

/-- Claim C9: Generate renders every template line carrying a V action
(an optional setting line) with exactly one comment marker inserted
after its leading spaces when uncomment is false and with the marker
absent when uncomment is true, and such lines exist; every line without
a V action is rendered identically in both outputs, in particular the
protoc section header line and the version line appear uncommented in
both. -/
theorem c9_config_init_commenting (v : String) :
    ∃ ls0 ls1 : List (List Char),
      Generate v true = Except.ok (String.mk (joinLines ls0)) ∧
      Generate v false = Except.ok (String.mk (joinLines ls1)) ∧
      List.Forall₂ linePair tmplLines (ls0.zip ls1) ∧
      (∃ l ∈ tmplLines, noVmark l = false) ∧
      "protoc:".data ∈ ls0 ∧ "protoc:".data ∈ ls1 ∧
      ("  version: ".data ++ htmlEscape v.data) ∈ ls0 ∧
      ("  version: ".data ++ htmlEscape v.data) ∈ ls1 := by
  refine ⟨tmplLines.map (renderLine [] (htmlEscape v.data)),
          tmplLines.map (renderLine ['#'] (htmlEscape v.data)),
          rfl, rfl, forall₂_linePair _ _ tmpl_all_shape, by decide,
          ?_, ?_, ?_, ?_⟩
  · exact List.mem_map.mpr ⟨[TPiece.lit "protoc:"], by decide,
      by simp [renderLine, renderPiece]⟩
  · exact List.mem_map.mpr ⟨[TPiece.lit "protoc:"], by decide,
      by simp [renderLine, renderPiece]⟩
  · exact List.mem_map.mpr ⟨[TPiece.lit "  version: ", TPiece.pver],
      by decide, by simp [renderLine, renderPiece]⟩
  · exact List.mem_map.mpr ⟨[TPiece.lit "  version: ", TPiece.pver],
      by decide, by simp [renderLine, renderPiece]⟩

theorem dropDigits_split (cs : List Char) :
    ∃ pre, cs = pre ++ dropDigits cs ∧ ∀ c ∈ pre, c.isDigit = true := by
  induction cs with
  | nil => exact ⟨[], rfl, by simp⟩
  | cons c cs ih =>
    by_cases hd : c.isDigit = true
    · obtain ⟨pre, heq, hall⟩ := ih
      refine ⟨c :: pre, ?_, ?_⟩
      · rw [dropDigits, if_pos hd, List.cons_append]
        exact congrArg (c :: ·) heq
      · intro x hx
        rcases List.mem_cons.mp hx with hx | hx
        · exact hx ▸ hd
        · exact hall x hx
    · refine ⟨[], ?_, by simp⟩
      rw [dropDigits, if_neg hd, List.nil_append]

theorem expectDot_eq (cs r : List Char) (h : expectDot cs = some r) :
    cs = '.' :: r := by
  rcases cs with _ | ⟨c, cs⟩
  · exact absurd h (by simp [expectDot])
  · rw [expectDot] at h
    by_cases hc : c = '.'
    · rw [if_pos hc, Option.some_inj] at h
      rw [hc, h]
    · rw [if_neg hc] at h
      exact absurd h (by simp)

theorem isVersionFormat_chars (s : String) (h : isVersionFormat s = true) :
    ∀ c ∈ s.data, c.isDigit = true ∨ c = '.' := by
  rw [isVersionFormat, Bool.and_eq_true] at h
  obtain ⟨h0, h⟩ := h
  rcases hc1 : expectDot (dropDigits s.data) with _ | r1
  · rw [hc1] at h; exact absurd h (by simp)
  rw [hc1, Bool.and_eq_true] at h
  obtain ⟨h1, h⟩ := h
  rcases hc2 : expectDot (dropDigits r1) with _ | r2
  · rw [hc2] at h; exact absurd h (by simp)
  rw [hc2, Bool.and_eq_true] at h
  obtain ⟨h2, h3⟩ := h
  obtain ⟨pre0, he0, ha0⟩ := dropDigits_split s.data
  obtain ⟨pre1, he1, ha1⟩ := dropDigits_split r1
  obtain ⟨pre2, he2, ha2⟩ := dropDigits_split r2
  have hd0 : dropDigits s.data = '.' :: r1 := expectDot_eq _ _ hc1
  have hd1 : dropDigits r1 = '.' :: r2 := expectDot_eq _ _ hc2
  have hd2 : dropDigits r2 = [] := by
    simpa [List.isEmpty_iff] using h3
  intro c hc
  rw [he0, hd0] at hc
  rcases List.mem_append.mp hc with hc | hc
  · exact Or.inl (ha0 c hc)
  rcases List.mem_cons.mp hc with hc | hc
  · exact Or.inr hc
  rw [he1, hd1] at hc
  rcases List.mem_append.mp hc with hc | hc
  · exact Or.inl (ha1 c hc)
  rcases List.mem_cons.mp hc with hc | hc
  · exact Or.inr hc
  rw [he2, hd2, List.append_nil] at hc
  exact Or.inl (ha2 c hc)

theorem htmlEscapeChar_eq_self (c : Char)
    (h : c.isDigit = true ∨ c = '.') : htmlEscapeChar c = [c] := by
  have hne : ∀ d : Char, d.isDigit = true ∨ d = '.' → d ≠ '&' ∧ d ≠ '<' ∧
      d ≠ '>' ∧ d ≠ '"' ∧ d ≠ Char.ofNat 39 ∧ d ≠ Char.ofNat 0 := by
    intro d hd
    rcases hd with hd | hd
    · refine ⟨?_, ?_, ?_, ?_, ?_, ?_⟩ <;>
        (intro he; rw [he] at hd; exact absurd hd (by decide))
    · subst hd; exact ⟨by decide, by decide, by decide, by decide,
        by decide, by decide⟩

  obtain ⟨h1, h2, h3, h4, h5, h6⟩ := hne c h
  rw [htmlEscapeChar, if_neg h1, if_neg h2, if_neg h3, if_neg h4,
    if_neg h5, if_neg h6]

theorem htmlEscape_eq_self (cs : List Char)
    (h : ∀ c ∈ cs, c.isDigit = true ∨ c = '.') : htmlEscape cs = cs := by
  induction cs with
  | nil => rfl
  | cons c cs ih =>
    rw [htmlEscape, List.map_cons, List.flatten_cons,
      htmlEscapeChar_eq_self c (h c (List.mem_cons_self c cs))]
    rw [htmlEscape] at ih
    rw [ih (fun x hx => h x (List.mem_cons_of_mem c hx))]
    rfl

/-- Claim C10: for every protoc version string matching the version
regular expression and either uncomment value, Generate returns a nil
error and its output contains the version line with the version verbatim
(the html template engine escapes nothing for such inputs). -/
theorem c10_version_verbatim (v : String) (h : isVersionFormat v = true)
    (u : Bool) :
    ∃ ls : List (List Char),
      Generate v u = Except.ok (String.mk (joinLines ls)) ∧
      ("  version: ".data ++ v.data) ∈ ls := by
  refine ⟨tmplLines.map
      (renderLine (if u then [] else ['#']) (htmlEscape v.data)),
    rfl, ?_⟩
  have hesc : htmlEscape v.data = v.data :=
    htmlEscape_eq_self _ (isVersionFormat_chars v h)
  refine List.mem_map.mpr ⟨[TPiece.lit "  version: ", TPiece.pver],
    by decide, ?_⟩
  simp [renderLine, renderPiece, hesc]

/-- Witness for C10: Generate at version 3.11.4 succeeds and its output
contains the version line verbatim. -/
theorem c10_version_verbatim_witness :
    isVersionFormat "3.11.4" = true ∧
    (∃ ls : List (List Char),
      Generate "3.11.4" false = Except.ok (String.mk (joinLines ls)) ∧
      ("  version: ".data ++ "3.11.4".data) ∈ ls) :=
  ⟨by decide, c10_version_verbatim "3.11.4" (by decide) false⟩

end Cfginit

/-! Theorems for the lexer claims. -/

namespace Lex

theorem strBody_sound (q : Char) :
    ∀ cs a r, strBody q cs = some (a, r) → a ++ r = cs ∧ a ≠ [] := by
  have H : ∀ n (cs : List Char), cs.length ≤ n →
      ∀ a r, strBody q cs = some (a, r) → a ++ r = cs ∧ a ≠ [] := by
    intro n
    induction n with
    | zero =>
      intro cs hlen a r h
      match cs with
      | [] => rw [show strBody q [] = none from rfl] at h; exact absurd h (by simp)
      | c :: cs => simp at hlen
    | succ n ih =>
      intro cs hlen a r h
      match cs, hlen with
      | [], _ => rw [show strBody q [] = none from rfl] at h; exact absurd h (by simp)
      | c :: cs, hlen =>
        rw [strBody.eq_def] at h
        dsimp only at h
        split_ifs at h with hq hb
        · rw [Option.some_inj] at h
          obtain ⟨ha, hr⟩ := Prod.mk.inj h
          subst ha; subst hr
          exact ⟨rfl, by simp⟩
        · match cs, hlen with
          | [], _ => exact absurd h (by simp)
          | d :: ds, hlen =>
            dsimp only at h
            rcases hrec : strBody q ds with _ | ⟨a', r'⟩ <;> rw [hrec] at h
            · exact absurd h (by simp)
            · rw [Option.some_inj] at h
              obtain ⟨ha, hr⟩ := Prod.mk.inj h
              subst ha; subst hr
              obtain ⟨heq, -⟩ :=
                ih ds (by simp only [List.length_cons] at hlen; omega) a' r' hrec
              exact ⟨by simp [heq], by simp⟩
        · rcases hrec : strBody q cs with _ | ⟨a', r'⟩ <;> rw [hrec] at h
          · exact absurd h (by simp)
          · rw [Option.some_inj] at h
            obtain ⟨ha, hr⟩ := Prod.mk.inj h
            subst ha; subst hr
            obtain ⟨heq, -⟩ :=
              ih cs (by simp only [List.length_cons] at hlen; omega) a' r' hrec
            exact ⟨by simp [heq], by simp⟩
  exact fun cs a r h => H cs.length cs le_rfl a r h


theorem blockRest_sound :
    ∀ cs a r, blockRest cs = some (a, r) → a ++ r = cs ∧ a ≠ [] := by
  have H : ∀ n (cs : List Char), cs.length ≤ n →
      ∀ a r, blockRest cs = some (a, r) → a ++ r = cs ∧ a ≠ [] := by
    intro n
    induction n with
    | zero =>
      intro cs hlen a r h
      match cs with
      | [] => rw [show blockRest [] = none from rfl] at h; exact absurd h (by simp)
      | c :: cs => simp at hlen
    | succ n ih =>
      intro cs hlen a r h
      match cs, hlen with
      | [], _ => rw [show blockRest [] = none from rfl] at h; exact absurd h (by simp)
      | c :: cs, hlen =>
        rw [blockRest.eq_def] at h
        dsimp only at h
        split_ifs at h with hs
        · match cs, hlen with
          | [], _ => exact absurd h (by simp)
          | d :: ds, hlen =>
            dsimp only at h
            split_ifs at h with hd
            · rw [Option.some_inj] at h
              obtain ⟨ha, hr⟩ := Prod.mk.inj h
              subst ha; subst hr
              exact ⟨rfl, by simp⟩
            · rcases hrec : blockRest (d :: ds) with _ | ⟨a', r'⟩ <;> rw [hrec] at h
              · exact absurd h (by simp)
              · rw [Option.some_inj] at h
                obtain ⟨ha, hr⟩ := Prod.mk.inj h
                subst ha; subst hr
                obtain ⟨heq, -⟩ := ih (d :: ds)
                  (by simp only [List.length_cons] at hlen ⊢; omega) a' r' hrec
                exact ⟨by simp [heq], by simp⟩
        · rcases hrec : blockRest cs with _ | ⟨a', r'⟩ <;> rw [hrec] at h
          · exact absurd h (by simp)
          · rw [Option.some_inj] at h
            obtain ⟨ha, hr⟩ := Prod.mk.inj h
            subst ha; subst hr
            obtain ⟨heq, -⟩ :=
              ih cs (by simp only [List.length_cons] at hlen; omega) a' r' hrec
            exact ⟨by simp [heq], by simp⟩
  exact fun cs a r h => H cs.length cs le_rfl a r h


theorem takeToken_sound :
    ∀ cs k a r, takeToken cs = some (k, a, r) → a ++ r = cs ∧ a ≠ [] := by
  intro cs k a r h
  match cs with
  | [] => rw [show takeToken [] = none from rfl] at h; exact absurd h (by simp)
  | c :: cs =>
    rw [takeToken.eq_def] at h
    dsimp only at h
    split_ifs at h with hws hsl hqt hid
    · rw [Option.some_inj] at h
      obtain ⟨-, hpr⟩ := Prod.mk.inj h
      obtain ⟨ha, hr⟩ := Prod.mk.inj hpr
      subst ha; subst hr
      exact ⟨by simp [List.takeWhile_append_dropWhile], by simp⟩
    · match cs with
      | [] =>
        dsimp only at h
        rw [Option.some_inj] at h
        obtain ⟨-, hpr⟩ := Prod.mk.inj h
        obtain ⟨ha, hr⟩ := Prod.mk.inj hpr
        subst ha; subst hr
        exact ⟨rfl, by simp⟩
      | d :: ds =>
        dsimp only at h
        split_ifs at h with hd hb
        · rw [Option.some_inj] at h
          obtain ⟨-, hpr⟩ := Prod.mk.inj h
          obtain ⟨ha, hr⟩ := Prod.mk.inj hpr
          subst ha; subst hr
          exact ⟨by simp [List.takeWhile_append_dropWhile], by simp⟩
        · rcases hrec : blockRest ds with _ | ⟨a', r'⟩ <;> rw [hrec] at h
          · exact absurd h (by simp)
          · rw [Option.some_inj] at h
            obtain ⟨-, hpr⟩ := Prod.mk.inj h
            obtain ⟨ha, hr⟩ := Prod.mk.inj hpr
            subst ha; subst hr
            obtain ⟨heq, -⟩ := blockRest_sound ds a' r' hrec
            exact ⟨by simp [heq], by simp⟩
        · rw [Option.some_inj] at h
          obtain ⟨-, hpr⟩ := Prod.mk.inj h
          obtain ⟨ha, hr⟩ := Prod.mk.inj hpr
          subst ha; subst hr
          exact ⟨rfl, by simp⟩
    · rcases hrec : strBody c cs with _ | ⟨a', r'⟩ <;> rw [hrec] at h
      · exact absurd h (by simp)
      · rw [Option.some_inj] at h
        obtain ⟨-, hpr⟩ := Prod.mk.inj h
        obtain ⟨ha, hr⟩ := Prod.mk.inj hpr
        subst ha; subst hr
        obtain ⟨heq, -⟩ := strBody_sound c cs a' r' hrec
        exact ⟨by simp [heq], by simp⟩
    · rw [Option.some_inj] at h
      obtain ⟨-, hpr⟩ := Prod.mk.inj h
      obtain ⟨ha, hr⟩ := Prod.mk.inj hpr
      subst ha; subst hr
      exact ⟨by simp [List.takeWhile_append_dropWhile], by simp⟩
    · rw [Option.some_inj] at h
      obtain ⟨-, hpr⟩ := Prod.mk.inj h
      obtain ⟨ha, hr⟩ := Prod.mk.inj hpr
      subst ha; subst hr
      exact ⟨rfl, by simp⟩


theorem lexFuel_roundTrip :
    ∀ fuel src line col off ts, lexFuel fuel src line col off = some ts →
      (ts.map Token.text).flatten = src := by
  intro fuel
  induction fuel with
  | zero => intro src l c o ts h; exact absurd h (by simp [lexFuel])
  | succ fuel ih =>
    intro src l c o ts h
    match src with
    | [] =>
      rw [show lexFuel (fuel + 1) [] l c o = some [] from rfl,
        Option.some_inj] at h
      subst h
      rfl
    | c0 :: cs =>
      rw [lexFuel] at h
      rcases htk : takeToken (c0 :: cs) with _ | ⟨k, a, r⟩ <;> rw [htk] at h
      · exact absurd h (by simp)
      · dsimp only at h
        rcases hrec : lexFuel fuel r (advance (l, c) a).1 (advance (l, c) a).2
            (o + a.length) with _ | ts' <;> rw [hrec] at h
        · exact absurd h (by simp)
        · rw [Option.some_inj] at h
          subst h
          obtain ⟨heq, -⟩ := takeToken_sound (c0 :: cs) k a r htk
          simp only [List.map_cons, List.flatten_cons]
          rw [ih r _ _ _ ts' hrec]
          exact heq


/-- Claim C1: for every source byte string accepted by the lexer,
concatenating the text field of every token of the lexed stream, in
stream order, reproduces the source byte for byte. -/
theorem c1_lex_round_trip (src : List Char) (ts : List Token)
    (h : lex src = some ts) : (ts.map Token.text).flatten = src :=
  lexFuel_roundTrip (src.length + 1) src 1 1 0 ts h


/-- Witness for C1: lexing a small proto file and concatenating the token
texts reproduces it. -/
theorem c1_lex_round_trip_witness :
    ((((lex demoSrc).getD []).map Token.text).flatten = demoSrc) :=
  c1_lex_round_trip demoSrc ((lex demoSrc).getD []) (by decide)


end Lex

/-! Theorems for the lint-configuration claim. -/

namespace Lint

/-- Claim C3: the effective lint rule set starts from the configured
group when lint.group is set (no_default being ignored), else empty when
no_default is set, else from the default group uber1; the rules of add
are added, the rules of remove are removed, and rules ignored for the
file are removed; any unregistered rule id in add or remove gives a
config-invalid error naming an unregistered id, and errors occur only
then. -/
theorem c3_effective_rules (registry : List LintRule) (cfg : LintCfg)
    (file : String) :
    (∀ err, effectiveRules registry cfg file = Except.error err →
      ∃ id, (id ∈ cfg.rules.add ∨ id ∈ cfg.rules.remove) ∧
        isRegistered registry id = false ∧
        err = ConfigError.configInvalid id) ∧
    ((∃ id, (id ∈ cfg.rules.add ∨ id ∈ cfg.rules.remove) ∧
        isRegistered registry id = false) →
      ∃ id, (id ∈ cfg.rules.add ∨ id ∈ cfg.rules.remove) ∧
        isRegistered registry id = false ∧
        effectiveRules registry cfg file =
          Except.error (ConfigError.configInvalid id)) ∧
    ((∀ id ∈ cfg.rules.add ++ cfg.rules.remove,
        isRegistered registry id = true) →
      ∃ rules, effectiveRules registry cfg file = Except.ok rules ∧
        ∀ id, id ∈ rules ↔
          ((id ∈ baseRules registry cfg ∨ id ∈ cfg.rules.add) ∧
           id ∉ cfg.rules.remove ∧ ignoredFor cfg file id = false)) ∧
    (∀ g, cfg.group = some g →
      baseRules registry cfg = groupRules registry g) ∧
    (cfg.group = none → cfg.rules.noDefault = true →
      baseRules registry cfg = []) ∧
    (cfg.group = none → cfg.rules.noDefault = false →
      baseRules registry cfg = groupRules registry defaultGroupName) := by
  refine ⟨?_, ?_, ?_, ?_, ?_, ?_⟩
  · intro err herr
    rw [effectiveRules] at herr
    rcases hfind : (cfg.rules.add ++ cfg.rules.remove).find?
        (fun id => !isRegistered registry id) with _ | id <;>
      rw [hfind] at herr
    · exact absurd herr (by simp)
    · refine ⟨id, ?_, ?_, ?_⟩
      · exact List.mem_append.mp (List.mem_of_find?_eq_some hfind)
      · have := List.find?_some hfind
        simpa using this
      · cases herr
        rfl
  · rintro ⟨id0, hmem0, hreg0⟩
    rcases hfind : (cfg.rules.add ++ cfg.rules.remove).find?
        (fun id => !isRegistered registry id) with _ | id
    · exact absurd (show (!isRegistered registry id0) = true by
          simp [hreg0])
        (List.find?_eq_none.mp hfind id0 (List.mem_append.mpr hmem0))
    · refine ⟨id, List.mem_append.mp (List.mem_of_find?_eq_some hfind),
        ?_, ?_⟩
      · have := List.find?_some hfind
        simpa using this
      · rw [effectiveRules, hfind]
  · intro hreg
    have hfind : (cfg.rules.add ++ cfg.rules.remove).find?
        (fun id => !isRegistered registry id) = none := by
      apply List.find?_eq_none.mpr
      intro x hx
      simp [hreg x hx]
    refine ⟨_, by rw [effectiveRules, hfind], ?_⟩
    intro id
    simp only [List.mem_filter, List.mem_append, Bool.not_eq_true',
      List.elem_iff]
    constructor
    · rintro ⟨⟨hin, hrm⟩, hig⟩
      refine ⟨?_, ?_, hig⟩
      · rcases hin with hin | hin
        · exact Or.inl hin
        · exact Or.inr hin.1
      · intro hmem
        have hc2 : cfg.rules.remove.contains id = true :=
          List.elem_iff.mpr hmem
        rw [hc2] at hrm
        exact absurd hrm (by simp)
    · rintro ⟨hin, hrm, hig⟩
      refine ⟨⟨?_, ?_⟩, hig⟩
      · by_cases hb : id ∈ baseRules registry cfg
        · exact Or.inl hb
        · rcases hin with hin | hin
          · exact absurd hin hb
          · refine Or.inr ⟨hin, ?_⟩
            by_cases hc : (baseRules registry cfg).contains id = true
            · exact absurd (List.elem_iff.mp hc) hb
            · simpa using hc
      · by_cases hc : cfg.rules.remove.contains id = true
        · exact absurd (List.elem_iff.mp hc) hrm
        · simpa using hc
  · intro g hg
    rw [baseRules, hg]
  · intro hg hnd
    rw [baseRules, hg, if_pos hnd]
  · intro hg hnd
    rw [baseRules, hg, if_neg (by simp [hnd])]

/-- Witness for C3: a concrete config whose add list names an
unregistered rule id yields a config-invalid error, and for a concrete
config with all referenced rule ids registered the effective rule set is
returned without error and satisfies the membership characterization. -/
theorem c3_effective_rules_witness :
    (∃ id, (id ∈ demoBadLintCfg.rules.add ∨
        id ∈ demoBadLintCfg.rules.remove) ∧
      isRegistered demoRegistry id = false ∧
      effectiveRules demoRegistry demoBadLintCfg "idl/foo.proto" =
        Except.error (ConfigError.configInvalid id)) ∧
    (∃ rules,
      effectiveRules demoRegistry demoLintCfg "idl/foo.proto" =
        Except.ok rules ∧
      ∀ id, id ∈ rules ↔
        ((id ∈ baseRules demoRegistry demoLintCfg ∨
          id ∈ demoLintCfg.rules.add) ∧
         id ∉ demoLintCfg.rules.remove ∧
         ignoredFor demoLintCfg "idl/foo.proto" id = false)) :=
  ⟨(c3_effective_rules demoRegistry demoBadLintCfg "idl/foo.proto").2.1
      ⟨"NOT_A_RULE", Or.inl (by decide), by decide⟩,
   (c3_effective_rules demoRegistry demoLintCfg "idl/foo.proto").2.2.1
      (by decide)⟩

end Lint

/-! Theorems for the break-checker claim. -/

namespace Breaking

theorem find?_self {α β : Type} [BEq β] [LawfulBEq β] (key : α → β)
    (xs : List α) (hnd : nodupKeys key xs = true) (x : α) (hx : x ∈ xs) :
    xs.find? (fun y => key y == key x) = some x := by
  induction xs with
  | nil => cases hx
  | cons z zs ih =>
    rw [nodupKeys, Bool.and_eq_true] at hnd
    rcases List.mem_cons.mp hx with rfl | hx
    · rw [List.find?_cons_of_pos _ (by simp)]
    · have hne : (key z == key x) = false := by
        by_contra hc
        have hzx : key z = key x := by
          have : (key z == key x) = true := by
            cases hb : (key z == key x)
            · exact absurd hb hc
            · rfl
          exact eq_of_beq this
        have hany : zs.any (fun y => key y == key z) = true :=
          List.any_eq_true.mpr ⟨x, hx, by simp [hzx]⟩
        have := hnd.1
        rw [hany] at this
        exact absurd this (by simp)
      rw [List.find?_cons_of_neg _ (by simp [hne])]
      exact ih hnd.2 hx

theorem flatMap_eq_nil {α β : Type} (f : α → List β) (l : List α)
    (h : ∀ x ∈ l, f x = []) : l.flatMap f = [] := by
  induction l with
  | nil => rfl
  | cons a l ih =>
    rw [List.flatMap_cons, h a (List.mem_cons_self a l), List.nil_append]
    exact ih (fun x hx => h x (List.mem_cons_of_mem a hx))

theorem checkField_self (msgName : String) (f : FieldD) :
    checkField msgName f f = [] := by
  simp [checkField, wireCompatible]

theorem checkMessage_self (m : MessageD)
    (hnd : nodupKeys (fun fl : FieldD => fl.number) m.fields = true) :
    checkMessage m m = [] := by
  rw [checkMessage]
  rw [flatMap_eq_nil _ _ (fun f hf => ?_), flatMap_eq_nil _ _ (fun g hg => ?_)]
  · rfl
  · rw [find?_self (fun fl : FieldD => fl.number) m.fields hnd g hg]
  · rw [find?_self (fun fl : FieldD => fl.number) m.fields hnd f hf]
    exact checkField_self m.fullName f

theorem checkEnum_self (e : EnumD)
    (hnd : nodupKeys (fun v : EnumValueD => v.name) e.values = true) :
    checkEnum e e = [] := by
  rw [checkEnum]
  refine flatMap_eq_nil _ _ (fun v hv => ?_)
  rw [find?_self (fun v : EnumValueD => v.name) e.values hnd v hv]
  simp

theorem checkRpc_self (serviceName : String) (r : RpcD) :
    checkRpc serviceName r r = [] := by
  simp [checkRpc]

theorem checkService_self (s : ServiceD)
    (hnd : nodupKeys (fun r : RpcD => r.name) s.rpcs = true) :
    checkService s s = [] := by
  rw [checkService]
  refine flatMap_eq_nil _ _ (fun r hr => ?_)
  rw [find?_self (fun r : RpcD => r.name) s.rpcs hnd r hr]
  exact checkRpc_self s.fullName r

theorem checkFilePair_self (f : FileD) (hwf : wellFormedFile f = true) :
    checkFilePair f f = [] := by
  rw [wellFormedFile] at hwf
  simp only [Bool.and_eq_true, List.all_eq_true] at hwf
  obtain ⟨⟨⟨⟨⟨hm, hmf⟩, he⟩, hev⟩, hs⟩, hsr⟩ := hwf
  rw [checkFilePair]
  rw [flatMap_eq_nil _ _ (fun m hmm => ?_),
    flatMap_eq_nil _ _ (fun e hee => ?_),
    flatMap_eq_nil _ _ (fun s hss => ?_)]
  · rfl
  · rw [find?_self (fun s : ServiceD => s.fullName) f.services hs s hss]
    exact checkService_self s (hsr s hss)
  · rw [find?_self (fun e : EnumD => e.fullName) f.enums he e hee]
    exact checkEnum_self e (hev e hee)
  · rw [find?_self (fun m : MessageD => m.fullName) f.messages hm m hmm]
    exact checkMessage_self m (hmf m hmm)

theorem checkBetaDeps_self (allowBetaDeps : Bool) (s : List FileD)
    (hnd : nodupKeys (fun f : FileD => f.name) s = true) :
    checkBetaDeps allowBetaDeps s s = [] := by
  rw [checkBetaDeps]
  refine flatMap_eq_nil _ _ (fun tf htf => ?_)
  by_cases hb : (allowBetaDeps || isBeta tf.packageName) = true
  · rw [if_pos hb]
  · rw [if_neg hb]
    refine flatMap_eq_nil _ _ (fun imp himp => ?_)
    rcases hfind : s.find? (fun g => g.name == imp) with _ | impF
    · rw [hfind]
    · by_cases hib : isBeta impF.packageName = true
      · have hself := find?_self (fun f : FileD => f.name) s hnd tf htf
        have hcont : tf.imports.contains imp = true := List.elem_iff.mpr himp
        simp [hfind, hib, hself, hcont, himp]
      · rw [Bool.not_eq_true] at hib
        simp [hfind, hib]

/-- Claim C5: for every well-formed FileDescriptorSet S and any flag
values, running break check with from and to both equal to S returns
zero failures. -/
theorem c5_break_check_reflexive (includeBeta allowBetaDeps : Bool)
    (s : List FileD) (hwf : wellFormed s = true) :
    checkBreak includeBeta allowBetaDeps s s = [] := by
  rw [wellFormed, Bool.and_eq_true, List.all_eq_true] at hwf
  obtain ⟨hnd, hfiles⟩ := hwf
  rw [checkBreak, checkBetaDeps_self allowBetaDeps s hnd, List.append_nil]
  refine flatMap_eq_nil _ _ (fun f hf => ?_)
  rw [find?_self (fun f : FileD => f.name) s hnd f hf]
  exact checkFilePair_self f (hfiles f hf)

/-- Witness for C5: a concrete two-file descriptor set is well-formed and
break checking it against itself yields zero failures. -/
theorem c5_break_check_reflexive_witness :
    wellFormed demoSet = true ∧
    checkBreak false false demoSet demoSet = [] :=
  ⟨by decide, c5_break_check_reflexive false false demoSet (by decide)⟩

end Breaking

/-! Theorems for the format-engine claim. -/

namespace Fmt

theorem identChar_not_ws {c : Char} (h : Lex.identChar c = true) :
    Lex.isWsChar c = false := by
  cases hw : Lex.isWsChar c
  · rfl
  · exfalso
    rw [Lex.isWsChar] at hw
    simp only [Bool.or_eq_true, decide_eq_true_eq] at hw
    rcases hw with ((hw | hw) | hw) | hw <;> subst hw <;>
      exact absurd h (by decide)

theorem identChar_not_quote {c : Char} (h : Lex.identChar c = true) :
    Lex.isQuote c = false := by
  cases hw : Lex.isQuote c
  · rfl
  · exfalso
    rw [Lex.isQuote] at hw
    simp only [Bool.or_eq_true, decide_eq_true_eq] at hw
    rcases hw with hw | hw <;> subst hw <;> exact absurd h (by decide)

theorem identChar_ne_slash {c : Char} (h : Lex.identChar c = true) :
    c ≠ '/' := by
  intro hc
  subst hc
  exact absurd h (by decide)

theorem quote_not_ws {c : Char} (h : Lex.isQuote c = true) :
    Lex.isWsChar c = false := by
  rw [Lex.isQuote] at h
  simp only [Bool.or_eq_true, decide_eq_true_eq] at h
  rcases h with h | h <;> subst h <;> decide

theorem quote_ne_slash {c : Char} (h : Lex.isQuote c = true) : c ≠ '/' := by
  rw [Lex.isQuote] at h
  simp only [Bool.or_eq_true, decide_eq_true_eq] at h
  rcases h with h | h <;> subst h <;> decide

theorem strBody_selfDelim (q : Char) :
    ∀ cs a r, Lex.strBody q cs = some (a, r) →
      selfDelim (Lex.strBody q) a := by
  have H : ∀ n (cs : List Char), cs.length ≤ n →
      ∀ a r, Lex.strBody q cs = some (a, r) →
        ∀ rest, Lex.strBody q (a ++ rest) = some (a, rest) := by
    intro n
    induction n with
    | zero =>
      intro cs hlen a r h
      match cs with
      | [] => exact absurd h (by simp [Lex.strBody])
      | c :: cs => simp at hlen
    | succ n ih =>
      intro cs hlen a r h
      match cs, hlen with
      | [], _ => exact absurd h (by simp [Lex.strBody])
      | c :: cs, hlen =>
        rw [Lex.strBody.eq_def] at h
        dsimp only at h
        split_ifs at h with hq hb
        · rw [Option.some_inj] at h
          obtain ⟨ha, hr⟩ := Prod.mk.inj h
          subst ha
          intro rest
          rw [Lex.strBody.eq_def]
          simp only [List.cons_append, List.nil_append, List.singleton_append]
          try dsimp only
          rw [if_pos hq]
        · match cs, hlen with
          | [], _ => exact absurd h (by simp)
          | d :: ds, hlen =>
            dsimp only at h
            rcases hrec : Lex.strBody q ds with _ | ⟨a', r'⟩ <;>
              rw [hrec] at h
            · exact absurd h (by simp)
            · rw [Option.some_inj] at h
              obtain ⟨ha, hr⟩ := Prod.mk.inj h
              subst ha
              have hih := ih ds
                (by simp only [List.length_cons] at hlen; omega) a' r' hrec
              intro rest
              rw [Lex.strBody.eq_def]
              simp only [List.cons_append, List.nil_append, List.singleton_append]
              try dsimp only
              rw [if_neg hq, if_pos hb]
              try dsimp only
              rw [hih rest]
        · rcases hrec : Lex.strBody q cs with _ | ⟨a', r'⟩ <;>
            rw [hrec] at h
          · exact absurd h (by simp)
          · rw [Option.some_inj] at h
            obtain ⟨ha, hr⟩ := Prod.mk.inj h
            subst ha
            have hih := ih cs
              (by simp only [List.length_cons] at hlen; omega) a' r' hrec
            intro rest
            rw [Lex.strBody.eq_def]
            simp only [List.cons_append, List.nil_append, List.singleton_append]
            try dsimp only
            rw [if_neg hq, if_neg hb, hih rest]
  exact fun cs a r h => H cs.length cs le_rfl a r h

theorem blockRest_selfDelim :
    ∀ cs a r, Lex.blockRest cs = some (a, r) →
      selfDelim Lex.blockRest a := by
  have H : ∀ n (cs : List Char), cs.length ≤ n →
      ∀ a r, Lex.blockRest cs = some (a, r) →
        ∀ rest, Lex.blockRest (a ++ rest) = some (a, rest) := by
    intro n
    induction n with
    | zero =>
      intro cs hlen a r h
      match cs with
      | [] => exact absurd h (by simp [Lex.blockRest])
      | c :: cs => simp at hlen
    | succ n ih =>
      intro cs hlen a r h
      match cs, hlen with
      | [], _ => exact absurd h (by simp [Lex.blockRest])
      | c :: cs, hlen =>
        rw [Lex.blockRest.eq_def] at h
        dsimp only at h
        split_ifs at h with hs
        · match cs, hlen with
          | [], _ => exact absurd h (by simp)
          | d :: ds, hlen =>
            dsimp only at h
            split_ifs at h with hd
            · rw [Option.some_inj] at h
              obtain ⟨ha, hr⟩ := Prod.mk.inj h
              subst ha
              intro rest
              rw [Lex.blockRest.eq_def]
              simp only [List.cons_append, List.nil_append, List.singleton_append]
              try dsimp only
              rw [if_pos hs]
              try dsimp only
              rw [if_pos hd]
            · rcases hrec : Lex.blockRest (d :: ds) with _ | ⟨a', r'⟩ <;>
                rw [hrec] at h
              · exact absurd h (by simp)
              · rw [Option.some_inj] at h
                obtain ⟨ha, hr⟩ := Prod.mk.inj h
                subst ha
                obtain ⟨heq, hne⟩ := Lex.blockRest_sound (d :: ds) a' r' hrec
                have hih := ih (d :: ds)
                  (by simp only [List.length_cons] at hlen ⊢; omega)
                  a' r' hrec
                intro rest
                match a', hne, heq, hih with
                | a0 :: a'', _, heq, hih =>
                  have ha0 : a0 = d := by
                    simpa using congrArg (fun l => l.head?) heq
                  subst ha0
                  rw [Lex.blockRest.eq_def]
                  simp only [List.cons_append, List.nil_append, List.singleton_append]
                  try dsimp only
                  rw [if_pos hs]
                  try dsimp only
                  rw [if_neg hd]
                  have := hih rest
                  rw [List.cons_append] at this
                  rw [this]
        · rcases hrec : Lex.blockRest cs with _ | ⟨a', r'⟩ <;>
            rw [hrec] at h
          · exact absurd h (by simp)
          · rw [Option.some_inj] at h
            obtain ⟨ha, hr⟩ := Prod.mk.inj h
            subst ha
            have hih := ih cs
              (by simp only [List.length_cons] at hlen; omega) a' r' hrec
            intro rest
            rw [Lex.blockRest.eq_def]
            simp only [List.cons_append, List.nil_append, List.singleton_append]
            try dsimp only
            rw [if_neg hs, hih rest]
  exact fun cs a r h => H cs.length cs le_rfl a r h

theorem takeToken_good (t : TokText) (ht : goodTok t) (rest : List Char)
    (hn : nextCharOK t rest.head?) :
    Lex.takeToken (t.text ++ rest) = some (t.kind, t.text, rest) := by
  obtain ⟨k, text⟩ := t
  cases k with
  | whitespace => exact ht.elim
  | identifier =>
    obtain ⟨hne, hall⟩ := ht
    rcases text with _ | ⟨c, cs⟩
    · exact absurd rfl hne
    · have hc : Lex.identChar c = true := hall c (List.mem_cons_self c cs)
      rw [List.cons_append, Lex.takeToken.eq_def]
      dsimp only
      rw [if_neg (by simp [identChar_not_ws hc]),
        if_neg (identChar_ne_slash hc),
        if_neg (by simp [identChar_not_quote hc]), if_pos hc]
      have htw : (cs ++ rest).takeWhile Lex.identChar = cs := by
        rw [List.takeWhile_append_of_pos
          (fun x hx => hall x (List.mem_cons_of_mem c hx))]
        rcases rest with _ | ⟨c2, r2⟩
        · simp
        · have hc2 : Lex.identChar c2 = false := hn.1 rfl
          simp [List.takeWhile_cons, hc2]
      have hdw : (cs ++ rest).dropWhile Lex.identChar = rest := by
        rw [List.dropWhile_append_of_pos
          (fun x hx => hall x (List.mem_cons_of_mem c hx))]
        rcases rest with _ | ⟨c2, r2⟩
        · simp
        · have hc2 : Lex.identChar c2 = false := hn.1 rfl
          simp [List.dropWhile_cons, hc2]
      rw [htw, hdw]
  | symbol =>
    obtain ⟨c, htext, hws, hq, hid⟩ := ht
    subst htext
    rw [List.singleton_append, Lex.takeToken.eq_def]
    dsimp only
    rw [if_neg (by simp [hws])]
    by_cases hsl : c = '/'
    · subst hsl
      rw [if_pos rfl]
      rcases rest with _ | ⟨d, ds⟩
      · rfl
      · obtain ⟨-, h2, -⟩ := hn
        obtain ⟨hd1, hd2⟩ := h2 rfl rfl
        dsimp only
        rw [if_neg hd1, if_neg hd2]
    · rw [if_neg hsl, if_neg (by simp [hq]), if_neg (by simp [hid])]
  | strLit =>
    obtain ⟨q, body, htext, hqt, hsd⟩ := ht
    subst htext
    rw [List.cons_append, Lex.takeToken.eq_def]
    dsimp only
    rw [if_neg (by simp [quote_not_ws hqt]), if_neg (quote_ne_slash hqt),
      if_pos hqt, hsd rest]
  | comment =>
    rcases ht with ⟨body, htext, hbody⟩ | ⟨body, htext, hsd⟩
    · subst htext
      rw [List.cons_append, List.cons_append, Lex.takeToken.eq_def]
      dsimp only
      rw [if_neg (by decide), if_pos rfl]
      try dsimp only
      rw [if_pos rfl]
      have htw : (body ++ rest).takeWhile (fun x => x ≠ '\n') = body := by
        rw [List.takeWhile_append_of_pos
          (fun x hx => by simpa using hbody x hx)]
        rcases rest with _ | ⟨c2, r2⟩
        · simp
        · have hc2 : c2 = '\n' := hn.2.2 rfl rfl
          subst hc2
          simp [List.takeWhile_cons]
      have hdw : (body ++ rest).dropWhile (fun x => x ≠ '\n') = rest := by
        rw [List.dropWhile_append_of_pos
          (fun x hx => by simpa using hbody x hx)]
        rcases rest with _ | ⟨c2, r2⟩
        · simp
        · have hc2 : c2 = '\n' := hn.2.2 rfl rfl
          subst hc2
          simp [List.dropWhile_cons]
      rw [htw, hdw]
    · subst htext
      rw [List.cons_append, List.cons_append, Lex.takeToken.eq_def]
      dsimp only
      rw [if_neg (by decide), if_pos rfl]
      try dsimp only
      rw [if_neg (by decide), if_pos rfl, hsd rest]

theorem takeToken_goodTok (cs : List Char) (k : Lex.TokenKind)
    (a r : List Char) (h : Lex.takeToken cs = some (k, a, r))
    (hk : k ≠ Lex.TokenKind.whitespace) : goodTok { kind := k, text := a } := by
  match cs with
  | [] => exact absurd h (by simp [Lex.takeToken])
  | c :: cs =>
    rw [Lex.takeToken.eq_def] at h
    dsimp only at h
    split_ifs at h with hws hsl hqt hid
    · obtain ⟨hkk, hpr⟩ := Prod.mk.inj (Option.some_inj.mp h).symm
      exact absurd hkk hk
    · rcases cs with _ | ⟨d, ds⟩
      · obtain ⟨hkk, hpr⟩ := Prod.mk.inj (Option.some_inj.mp h).symm
        obtain ⟨ha, hr⟩ := Prod.mk.inj hpr
        subst hkk; subst ha; subst hsl
        exact ⟨'/', rfl, by decide, by decide, by decide⟩
      · dsimp only at h
        split_ifs at h with hd hb
        · obtain ⟨hkk, hpr⟩ := Prod.mk.inj (Option.some_inj.mp h).symm
          obtain ⟨ha, hr⟩ := Prod.mk.inj hpr
          subst hkk; subst ha; subst hsl; subst hd
          refine Or.inl ⟨ds.takeWhile (fun x => x ≠ '\n'), rfl, ?_⟩
          intro x hx
          have := List.mem_takeWhile_imp hx
          simpa using this
        · rcases hrec : Lex.blockRest ds with _ | ⟨a', r'⟩ <;>
            rw [hrec] at h
          · exact absurd h (by simp)
          · obtain ⟨hkk, hpr⟩ := Prod.mk.inj (Option.some_inj.mp h).symm
            obtain ⟨ha, hr⟩ := Prod.mk.inj hpr
            subst hkk; subst ha; subst hsl; subst hb
            exact Or.inr ⟨a', rfl, blockRest_selfDelim ds a' r' hrec⟩
        · obtain ⟨hkk, hpr⟩ := Prod.mk.inj (Option.some_inj.mp h).symm
          obtain ⟨ha, hr⟩ := Prod.mk.inj hpr
          subst hkk; subst ha; subst hsl
          exact ⟨'/', rfl, by decide, by decide, by decide⟩
    · rcases hrec : Lex.strBody c cs with _ | ⟨a', r'⟩ <;> rw [hrec] at h
      · exact absurd h (by simp)
      · obtain ⟨hkk, hpr⟩ := Prod.mk.inj (Option.some_inj.mp h).symm
        obtain ⟨ha, hr⟩ := Prod.mk.inj hpr
        subst hkk; subst ha
        exact ⟨c, a', rfl, hqt, strBody_selfDelim c cs a' r' hrec⟩
    · obtain ⟨hkk, hpr⟩ := Prod.mk.inj (Option.some_inj.mp h).symm
      obtain ⟨ha, hr⟩ := Prod.mk.inj hpr
      subst hkk; subst ha
      refine ⟨by simp, ?_⟩
      intro x hx
      rcases List.mem_cons.mp hx with rfl | hx
      · exact hid
      · exact List.mem_takeWhile_imp hx
    · obtain ⟨hkk, hpr⟩ := Prod.mk.inj (Option.some_inj.mp h).symm
      obtain ⟨ha, hr⟩ := Prod.mk.inj hpr
      subst hkk; subst ha
      refine ⟨c, rfl, ?_, ?_, ?_⟩
      · cases hww : Lex.isWsChar c
        · rfl
        · exact absurd hww (by simp [hws])
      · cases hww : Lex.isQuote c
        · rfl
        · exact absurd hww (by simp [hqt])
      · cases hww : Lex.identChar c
        · rfl
        · exact absurd hww (by simp [hid])

theorem lexFuel_goodToks :
    ∀ fuel src line col off ts,
      Lex.lexFuel fuel src line col off = some ts →
      ∀ t ∈ ts, t.kind = Lex.TokenKind.whitespace ∨ goodTok (toTokText t) := by
  intro fuel
  induction fuel with
  | zero => intro src l c o ts h; exact absurd h (by simp [Lex.lexFuel])
  | succ fuel ih =>
    intro src l c o ts h
    match src with
    | [] =>
      rw [show Lex.lexFuel (fuel + 1) [] l c o = some [] from rfl,
        Option.some_inj] at h
      subst h
      intro t ht
      cases ht
    | c0 :: cs =>
      rw [Lex.lexFuel] at h
      rcases htk : Lex.takeToken (c0 :: cs) with _ | ⟨k, a, r⟩ <;>
        rw [htk] at h
      · exact absurd h (by simp)
      · dsimp only at h
        rcases hrec : Lex.lexFuel fuel r (Lex.advance (l, c) a).1
            (Lex.advance (l, c) a).2 (o + a.length) with _ | ts' <;>
          rw [hrec] at h
        · exact absurd h (by simp)
        · rw [Option.some_inj] at h
          subst h
          intro t ht
          rcases List.mem_cons.mp ht with rfl | ht
          · by_cases hkw : k = Lex.TokenKind.whitespace
            · exact Or.inl hkw
            · exact Or.inr (takeToken_goodTok (c0 :: cs) k a r htk hkw)
          · exact ih r _ _ _ ts' hrec t ht

theorem meaningfulToks_good (ts : List Lex.Token)
    (h : ∀ t ∈ ts, t.kind = Lex.TokenKind.whitespace ∨ goodTok (toTokText t)) :
    ∀ t ∈ meaningfulToks ts, goodTok t := by
  intro t ht
  rw [meaningfulToks] at ht
  obtain ⟨orig, horig, rfl⟩ := List.mem_map.mp ht
  obtain ⟨hmem, hcond⟩ := List.mem_filter.mp horig
  rcases h orig hmem with hw | hg
  · rw [hw] at hcond
    exact absurd hcond (by simp)
  · exact hg

theorem renderE_cons (e : Emi) (es : List Emi) :
    renderE (e :: es) = emiChars e ++ renderE es := by
  simp [renderE]

theorem chainCharsE_none (es : List Emi) :
    chainCharsE es none = (renderE es).head? := by
  rw [chainCharsE]
  cases (renderE es).head? <;> rfl

theorem goodTok_text_ne_nil (t : TokText) (h : goodTok t) : t.text ≠ [] := by
  obtain ⟨k, text⟩ := t
  cases k with
  | whitespace => exact h.elim
  | identifier => exact h.1
  | symbol =>
    obtain ⟨c, htext, -⟩ := h
    have htext2 : text = [c] := htext
    simp [htext2]
  | strLit =>
    obtain ⟨q, body, htext, -⟩ := h
    have htext2 : text = q :: body := htext
    simp [htext2]
  | comment =>
    rcases h with ⟨body, htext, -⟩ | ⟨body, htext, -⟩
    · have htext2 : text = '/' :: '/' :: body := htext
      simp [htext2]
    · have htext2 : text = '/' :: '*' :: body := htext
      simp [htext2]

theorem goodTok_kind_ne_ws (t : TokText) (h : goodTok t) :
    t.kind ≠ Lex.TokenKind.whitespace := by
  intro hk
  obtain ⟨k, text⟩ := t
  dsimp only at hk
  subst hk
  exact h.elim

theorem goodTok_first_not_ws (t : TokText) (h : goodTok t) (c : Char)
    (hc : t.text.head? = some c) : Lex.isWsChar c = false := by
  obtain ⟨k, text⟩ := t
  cases k with
  | whitespace => exact h.elim
  | identifier =>
    obtain ⟨hne, hall⟩ := h
    rcases text with _ | ⟨c0, cs⟩
    · simp at hc
    · rw [List.head?_cons, Option.some_inj] at hc
      subst hc
      exact identChar_not_ws (hall c0 (List.mem_cons_self c0 cs))
  | symbol =>
    obtain ⟨c0, htext, hws, -⟩ := h
    have htext2 : text = [c0] := htext
    rw [htext2, List.head?_cons, Option.some_inj] at hc
    subst hc
    exact hws
  | strLit =>
    obtain ⟨q, body, htext, hqt, -⟩ := h
    have htext2 : text = q :: body := htext
    rw [htext2, List.head?_cons, Option.some_inj] at hc
    subst hc
    exact quote_not_ws hqt
  | comment =>
    rcases h with ⟨body, htext, -⟩ | ⟨body, htext, -⟩
    · have htext2 : text = '/' :: '/' :: body := htext
      rw [htext2, List.head?_cons, Option.some_inj] at hc
      subst hc
      decide
    · have htext2 : text = '/' :: '*' :: body := htext
      rw [htext2, List.head?_cons, Option.some_inj] at hc
      subst hc
      decide

theorem meaningfulToks_cons_ws (t0 : Lex.Token) (ts : List Lex.Token)
    (h : t0.kind = Lex.TokenKind.whitespace) :
    meaningfulToks (t0 :: ts) = meaningfulToks ts := by
  simp [meaningfulToks, List.filter_cons, h]

theorem meaningfulToks_cons_keep (t0 : Lex.Token) (ts : List Lex.Token)
    (h : t0.kind ≠ Lex.TokenKind.whitespace) :
    meaningfulToks (t0 :: ts) = toTokText t0 :: meaningfulToks ts := by
  have hb : (t0.kind == Lex.TokenKind.whitespace) = false := by
    cases hx : (t0.kind == Lex.TokenKind.whitespace)
    · rfl
    · exact absurd (eq_of_beq hx) h
  simp [meaningfulToks, List.filter_cons, hb]

theorem lexFuel_render :
    ∀ (es : List Emi) (fuel line col off : Nat),
      (renderE es).length < fuel → goodE es →
      ∃ ts, Lex.lexFuel fuel (renderE es) line col off = some ts ∧
        meaningfulToks ts = toksE es := by
  intro es
  induction es with
  | nil =>
    intro fuel line col off hlen hg
    match fuel with
    | fuel + 1 => exact ⟨[], rfl, rfl⟩
  | cons e es ih =>
    intro fuel line col off hlen hg
    cases e with
    | ws w =>
      obtain ⟨hne, hall, hnext, hg'⟩ := hg
      rcases w with _ | ⟨w0, w'⟩
      · exact absurd rfl hne
      · rw [renderE_cons] at hlen ⊢
        dsimp only [emiChars] at hlen ⊢
        rw [List.cons_append] at hlen ⊢
        match fuel, hlen with
        | fuel + 1, hlen =>
          have htw : (w' ++ renderE es).takeWhile Lex.isWsChar = w' := by
            rw [List.takeWhile_append_of_pos
              (fun x hx => hall x (List.mem_cons_of_mem w0 hx))]
            rcases hre : renderE es with _ | ⟨c2, tl⟩
            · simp
            · have hc2 : Lex.isWsChar c2 = false := by
                apply hnext
                rw [chainCharsE_none, hre]
                rfl
              simp [List.takeWhile_cons, hc2]
          have hdw : (w' ++ renderE es).dropWhile Lex.isWsChar = renderE es := by
            rw [List.dropWhile_append_of_pos
              (fun x hx => hall x (List.mem_cons_of_mem w0 hx))]
            rcases hre : renderE es with _ | ⟨c2, tl⟩
            · simp
            · have hc2 : Lex.isWsChar c2 = false := by
                apply hnext
                rw [chainCharsE_none, hre]
                rfl
              simp [List.dropWhile_cons, hc2]
          have htk : Lex.takeToken (w0 :: (w' ++ renderE es)) =
              some (Lex.TokenKind.whitespace, w0 :: w', renderE es) := by
            rw [Lex.takeToken.eq_def]
            dsimp only
            rw [if_pos (hall w0 (List.mem_cons_self w0 w')), htw, hdw]
          obtain ⟨ts', hts', hmt⟩ := ih fuel
            (Lex.advance (line, col) (w0 :: w')).1
            (Lex.advance (line, col) (w0 :: w')).2
            (off + (w0 :: w').length)
            (by simp only [List.length_append, List.length_cons] at hlen ⊢
                omega)
            hg'
          refine ⟨Lex.Token.mk Lex.TokenKind.whitespace (w0 :: w')
              line col off :: ts', ?_, ?_⟩
          · rw [Lex.lexFuel, htk]
            dsimp only
            rw [hts']
          · rw [meaningfulToks_cons_ws _ _ rfl, hmt]
            rfl
    | tok t =>
      obtain ⟨hgt, hnext, hg'⟩ := hg
      have hn : nextCharOK t (renderE es).head? := by
        rw [← chainCharsE_none]
        exact hnext
      have htt := takeToken_good t hgt (renderE es) hn
      rcases htext : t.text with _ | ⟨c0, cs0⟩
      · exact absurd htext (goodTok_text_ne_nil t hgt)
      · rw [renderE_cons] at hlen ⊢
        dsimp only [emiChars] at hlen ⊢
        rw [htext, List.cons_append] at hlen ⊢
        rw [htext, List.cons_append] at htt
        match fuel, hlen with
        | fuel + 1, hlen =>
          obtain ⟨ts', hts', hmt⟩ := ih fuel
            (Lex.advance (line, col) (c0 :: cs0)).1
            (Lex.advance (line, col) (c0 :: cs0)).2
            (off + (c0 :: cs0).length)
            (by simp only [List.length_append, List.length_cons] at hlen ⊢
                omega)
            hg'
          refine ⟨Lex.Token.mk t.kind (c0 :: cs0) line col off :: ts',
              ?_, ?_⟩
          · rw [Lex.lexFuel, htt]
            dsimp only
            rw [hts']
          · rw [meaningfulToks_cons_keep _ _ (goodTok_kind_ne_ws t hgt)]
            rw [hmt]
            have heta : toTokText (Lex.Token.mk t.kind (c0 :: cs0)
                line col off) = t := by
              have h2 : ({ kind := t.kind, text := c0 :: cs0 } : TokText) =
                  { kind := t.kind, text := t.text } := by rw [htext]
              exact h2
            rw [heta]
            rfl

theorem renderE_append (A B : List Emi) :
    renderE (A ++ B) = renderE A ++ renderE B := by
  simp [renderE]

theorem chainCharsE_nil (nx : Option Char) : chainCharsE [] nx = nx := rfl

theorem chainCharsE_cons_tok (t : TokText) (c0 : Char) (cs0 : List Char)
    (h : t.text = c0 :: cs0) (es : List Emi) (nx : Option Char) :
    chainCharsE (Emi.tok t :: es) nx = some c0 := by
  rw [chainCharsE, renderE_cons]
  dsimp only [emiChars]
  rw [h, List.cons_append]
  rfl

theorem chainCharsE_cons_ws (w0 : Char) (w' : List Char) (es : List Emi)
    (nx : Option Char) :
    chainCharsE (Emi.ws (w0 :: w') :: es) nx = some w0 := by
  rw [chainCharsE, renderE_cons]
  dsimp only [emiChars]
  rw [List.cons_append]
  rfl

theorem chainCharsE_append (A B : List Emi) (nx : Option Char) :
    chainCharsE (A ++ B) nx = chainCharsE A (chainCharsE B nx) := by
  rcases hA : renderE A with _ | ⟨c, tl⟩
  · rw [chainCharsE, chainCharsE, chainCharsE, renderE_append, hA,
      List.nil_append]
    rfl
  · rw [chainCharsE, chainCharsE, renderE_append, hA, List.cons_append]
    rfl

theorem goodEW_append (A B : List Emi) (nx : Option Char)
    (hA : goodEW A (chainCharsE B nx)) (hB : goodEW B nx) :
    goodEW (A ++ B) nx := by
  induction A with
  | nil => exact hB
  | cons e A' ih =>
    cases e with
    | ws w =>
      obtain ⟨hne, hall, hnext, hA'⟩ := hA
      refine ⟨hne, hall, ?_, ih hA'⟩
      intro c hc
      rw [List.append_eq, chainCharsE_append] at hc
      exact hnext c hc
    | tok t =>
      obtain ⟨hgt, hnc, hA'⟩ := hA
      refine ⟨hgt, ?_, ih hA'⟩
      rw [List.append_eq, chainCharsE_append]
      exact hnc

theorem nextCharOK_newline (t : TokText) : nextCharOK t (some '\n') :=
  ⟨fun _ => by decide, fun _ _ => ⟨by decide, by decide⟩, fun _ _ => rfl⟩

theorem nextCharOK_noncomment (t : TokText) (c : Char)
    (hnc : t.kind ≠ Lex.TokenKind.comment)
    (hid : Lex.identChar c = false) (h1 : c ≠ '/') (h2 : c ≠ '*') :
    nextCharOK t (some c) :=
  ⟨fun _ => hid, fun _ _ => ⟨h1, h2⟩, fun hk => absurd hk hnc⟩

theorem goodTok_head (t : TokText) (h : goodTok t) :
    ∃ c0 cs0, t.text = c0 :: cs0 ∧ Lex.isWsChar c0 = false := by
  rcases htext : t.text with _ | ⟨c0, cs0⟩
  · exact absurd htext (goodTok_text_ne_nil t h)
  · refine ⟨c0, cs0, rfl, goodTok_first_not_ws t h c0 ?_⟩
    rw [htext]
    rfl

theorem spacedE_head (x : TokText) (xs : List TokText) :
    ∃ tail, spacedE (x :: xs) = Emi.tok x :: tail := by
  cases xs with
  | nil => exact ⟨[], rfl⟩
  | cons y ys => exact ⟨_, rfl⟩

theorem goodEW_spaced (main : List TokText) (tl : List Emi)
    (nx : Option Char)
    (hmain : ∀ t ∈ main, goodTok t ∧ t.kind ≠ Lex.TokenKind.comment)
    (htl : goodEW tl nx)
    (hch : ∀ t, goodTok t → t.kind ≠ Lex.TokenKind.comment →
      nextCharOK t (chainCharsE tl nx)) :
    goodEW (spacedE main ++ tl) nx := by
  induction main with
  | nil => exact htl
  | cons t rest ih =>
    rcases rest with _ | ⟨t2, rest2⟩
    · obtain ⟨hgt, hnc⟩ := hmain t (List.mem_cons_self t [])
      rw [spacedE, List.cons_append, List.nil_append]
      exact ⟨hgt, hch t hgt hnc, htl⟩
    · obtain ⟨hgt, hnc⟩ := hmain t (List.mem_cons_self t (t2 :: rest2))
      obtain ⟨hgt2, -⟩ :=
        hmain t2 (List.mem_cons_of_mem t (List.mem_cons_self t2 rest2))
      obtain ⟨c0, cs0, htext2, hws2⟩ := goodTok_head t2 hgt2
      have hrest :=
        ih (fun x hx => hmain x (List.mem_cons_of_mem t hx))
      obtain ⟨tail2, hsp⟩ := spacedE_head t2 rest2
      rw [spacedE, List.cons_append, List.cons_append]
      refine ⟨hgt, ?_, ?_, ?_, ?_, hrest⟩
      · rw [chainCharsE_cons_ws]
        exact nextCharOK_noncomment t ' ' hnc (by decide) (by decide)
          (by decide)
      · simp
      · intro c hc
        simp only [List.mem_singleton] at hc
        subst hc
        decide
      · intro c hc
        rw [hsp, List.cons_append,
          chainCharsE_cons_tok t2 c0 cs0 htext2] at hc
        rw [Option.some_inj] at hc
        subst hc
        exact hws2

theorem toksE_append (A B : List Emi) : toksE (A ++ B) = toksE A ++ toksE B :=
  List.filterMap_append A B _

theorem toksE_spacedE (main : List TokText) : toksE (spacedE main) = main := by
  induction main with
  | nil => rfl
  | cons t rest ih =>
    rcases rest with _ | ⟨t2, rest2⟩
    · rfl
    · rw [spacedE]
      show toksE (Emi.tok t :: Emi.ws [' '] :: spacedE (t2 :: rest2)) = _
      rw [toksE, List.filterMap_cons, List.filterMap_cons]
      rw [toksE] at ih
      rw [ih]

theorem toksE_lineE (lead : List Char) (main : List TokText)
    (tailT : Option TokText) :
    toksE (lineE lead main tailT) =
      main ++ (match tailT with
        | some t => [t]
        | none => []) := by
  rw [lineE.eq_def, toksE_append, toksE_append, toksE_spacedE]
  have h1 : toksE (if lead.isEmpty then [] else [Emi.ws lead]) = [] := by
    split_ifs <;> rfl
  rw [h1, List.nil_append]
  congr 1
  cases tailT <;> rfl

theorem leadOf_ws (b : Bool) (ind : Nat) :
    ∀ c ∈ leadOf b ind, Lex.isWsChar c = true := by
  intro c hc
  rw [leadOf] at hc
  rcases List.mem_append.mp hc with hc | hc
  · cases b
    · simp only [Bool.false_eq_true, if_false, List.mem_singleton] at hc
      subst hc
      decide
    · simp only [if_true, List.mem_cons, List.not_mem_nil, or_false] at hc
      rcases hc with rfl | rfl <;> decide
  · rw [indentOf] at hc
    rw [List.eq_of_mem_replicate hc]
    decide

theorem leadFor_ws (sep : Option Bool) (ind : Nat) :
    ∀ c ∈ leadFor sep ind, Lex.isWsChar c = true := by
  intro c hc
  cases sep with
  | none => cases hc
  | some b => exact leadOf_ws b ind c hc

theorem goodEW_lead_prepend (lead : List Char) (es : List Emi)
    (hlead : ∀ c ∈ lead, Lex.isWsChar c = true)
    (hes : goodEW es (some '\n'))
    (hfirst : ∀ c, chainCharsE es (some '\n') = some c →
      Lex.isWsChar c = false) :
    goodEW ((if lead.isEmpty then [] else [Emi.ws lead]) ++ es)
      (some '\n') := by
  by_cases hl : lead.isEmpty
  · rw [if_pos hl, List.nil_append]
    exact hes
  · rw [if_neg hl, List.singleton_append]
    refine ⟨?_, hlead, hfirst, hes⟩
    intro hnil
    rw [hnil] at hl
    exact hl rfl

theorem goodEW_tail_tok (st : TokText) (hst : goodTok st) :
    goodEW [Emi.tok st] (some '\n') :=
  ⟨hst, by rw [chainCharsE_nil]; exact nextCharOK_newline st, trivial⟩

theorem goodEW_lineE_single (lead : List Char) (t : TokText)
    (hlead : ∀ c ∈ lead, Lex.isWsChar c = true) (hgt : goodTok t) :
    goodEW (lineE lead [t] none) (some '\n') := by
  rw [lineE.eq_def, List.append_assoc]
  refine goodEW_lead_prepend lead _ hlead ?_ ?_
  · rw [spacedE]
    show goodEW ([Emi.tok t] ++ []) (some '\n')
    rw [List.append_nil]
    exact goodEW_tail_tok t hgt
  · intro c hc
    obtain ⟨c0, cs0, htext, hws⟩ := goodTok_head t hgt
    rw [show spacedE [t] ++ (match (none : Option TokText) with
        | some t => [Emi.tok t]
        | none => []) = [Emi.tok t] from by rw [spacedE]; rfl] at hc
    rw [chainCharsE_cons_tok t c0 cs0 htext, Option.some_inj] at hc
    subst hc
    exact hws

theorem goodEW_lineE_tail (lead : List Char) (main : List TokText)
    (st : TokText)
    (hlead : ∀ c ∈ lead, Lex.isWsChar c = true)
    (hmain : ∀ t ∈ main, goodTok t ∧ t.kind ≠ Lex.TokenKind.comment)
    (hst : goodTok st)
    (hsttext : ∃ c0 cs0, st.text = c0 :: cs0 ∧ Lex.isWsChar c0 = false ∧
      Lex.identChar c0 = false ∧ c0 ≠ '/' ∧ c0 ≠ '*') :
    goodEW (lineE lead main (some st)) (some '\n') := by
  obtain ⟨c0, cs0, htext, hws0, hid0, hs1, hs2⟩ := hsttext
  rw [lineE.eq_def, List.append_assoc]
  have htl : goodEW [Emi.tok st] (some '\n') := goodEW_tail_tok st hst
  refine goodEW_lead_prepend lead _ hlead ?_ ?_
  · refine goodEW_spaced main [Emi.tok st] (some '\n') hmain htl ?_
    intro t hgt hnc
    rw [chainCharsE_cons_tok st c0 cs0 htext]
    exact nextCharOK_noncomment t c0 hnc hid0 hs1 hs2
  · intro c hc
    rcases main with _ | ⟨m, ms⟩
    · rw [show spacedE [] ++ [Emi.tok st] = [Emi.tok st] from rfl] at hc
      rw [chainCharsE_cons_tok st c0 cs0 htext, Option.some_inj] at hc
      subst hc
      exact hws0
    · obtain ⟨hgm, -⟩ := hmain m (List.mem_cons_self m ms)
      obtain ⟨d0, ds0, htm, hwm⟩ := goodTok_head m hgm
      obtain ⟨tail2, hsp⟩ := spacedE_head m ms
      rw [hsp, List.cons_append,
        chainCharsE_cons_tok m d0 ds0 htm, Option.some_inj] at hc
      subst hc
      exact hwm

theorem goodEW_lineE_main (lead : List Char) (main : List TokText)
    (hlead : ∀ c ∈ lead, Lex.isWsChar c = true)
    (hmain : ∀ t ∈ main, goodTok t ∧ t.kind ≠ Lex.TokenKind.comment)
    (hne : main ≠ []) :
    goodEW (lineE lead main none) (some '\n') := by
  rw [lineE.eq_def, List.append_assoc]
  refine goodEW_lead_prepend lead _ hlead ?_ ?_
  · show goodEW (spacedE main ++ []) (some '\n')
    refine goodEW_spaced main [] (some '\n') hmain trivial ?_
    intro t hgt hnc
    rw [chainCharsE_nil]
    exact nextCharOK_newline t
  · intro c hc
    rcases main with _ | ⟨m, ms⟩
    · exact absurd rfl hne
    · obtain ⟨hgm, -⟩ := hmain m (List.mem_cons_self m ms)
      obtain ⟨d0, ds0, htm, hwm⟩ := goodTok_head m hgm
      obtain ⟨tail2, hsp⟩ := spacedE_head m ms
      rw [show spacedE (m :: ms) ++ (match (none : Option TokText) with
          | some t => [Emi.tok t]
          | none => []) = spacedE (m :: ms) ++ [] from rfl,
        List.append_nil, hsp,
        chainCharsE_cons_tok m d0 ds0 htm, Option.some_inj] at hc
      subst hc
      exact hwm

theorem isCommentTok_spec (t : TokText) (h : isCommentTok t = true) :
    t.kind = Lex.TokenKind.comment :=
  eq_of_beq h

theorem isSemiTok_spec (t : TokText) (h : isSemiTok t = true) :
    t.kind = Lex.TokenKind.symbol ∧ t.text = [';'] := by
  rw [isSemiTok, Bool.and_eq_true] at h
  exact ⟨eq_of_beq h.1, eq_of_beq h.2⟩

theorem isOpenTok_spec (t : TokText) (h : isOpenTok t = true) :
    t.kind = Lex.TokenKind.symbol ∧ t.text = ['{'] := by
  rw [isOpenTok, Bool.and_eq_true] at h
  exact ⟨eq_of_beq h.1, eq_of_beq h.2⟩

theorem headTok_not_comment (t : TokText) (h : headTok t = true) :
    t.kind ≠ Lex.TokenKind.comment := by
  intro hk
  rw [headTok, Bool.not_eq_true'] at h
  have hcm : isCommentTok t = true := by
    rw [isCommentTok, hk]
    rfl
  rw [hcm] at h
  simp at h

theorem leadOf_cons (b : Bool) (ind : Nat) :
    ∃ tl, leadOf b ind = '\n' :: tl := by
  cases b <;> exact ⟨_, rfl⟩

theorem lineE_lead_cons (lead : List Char) (main : List TokText)
    (tailT : Option TokText) (hl : lead ≠ []) :
    lineE lead main tailT =
      Emi.ws lead :: (spacedE main ++ (match tailT with
        | some t => [Emi.tok t]
        | none => [])) := by
  rw [lineE.eq_def, if_neg (by simpa using hl), List.append_assoc,
    List.singleton_append]

theorem renderE_lineE_lead_head (b : Bool) (ind : Nat)
    (main : List TokText) (tailT : Option TokText) (es' : List Emi) :
    (renderE (lineE (leadOf b ind) main tailT ++ es')).head? =
      some '\n' := by
  obtain ⟨tl, hlead⟩ := leadOf_cons b ind
  rw [lineE_lead_cons _ _ _ (by rw [hlead]; simp), List.cons_append,
    renderE_cons]
  dsimp only [emiChars]
  rw [hlead, List.cons_append]
  rfl

theorem fmtLines_spec :
    ∀ (fuel ind : Nat) (sep : Option Bool) (ts : List TokText)
      (es : List Emi),
      (∀ t ∈ ts, goodTok t) →
      fmtLines fuel ind sep ts = some es →
      toksE es = ts ∧ goodE es ∧
        (∀ b, sep = some b → (renderE es).head? = some '\n') := by
  intro fuel
  induction fuel with
  | zero =>
    intro ind sep ts es hgood h
    exact absurd h (by simp [fmtLines])
  | succ fuel ih =>
    intro ind sep ts es hgood h
    match ts with
    | [] =>
      rw [fmtLines, fmtStep.eq_def] at h
      dsimp only at h
      split_ifs at h with hind
      · match sep, h with
        | none, h =>
          rw [Option.some_inj] at h
          subst h
          exact ⟨rfl, trivial, fun b hb => by cases hb⟩
        | some b0, h =>
          rw [Option.some_inj] at h
          subst h
          refine ⟨rfl, ⟨by simp, ?_, ?_, trivial⟩, fun b hb => rfl⟩
          · intro c hc
            rcases List.mem_singleton.mp hc with rfl
            decide
          · intro c hc
            rw [chainCharsE_nil] at hc
            cases hc
    | t :: ts' =>
      rw [fmtLines, fmtStep.eq_def] at h
      dsimp only at h
      have hgood' : ∀ x ∈ ts', goodTok x :=
        fun x hx => hgood x (List.mem_cons_of_mem t hx)
      split_ifs at h with hcm hcl
      · -- comment line
        rcases hrec : fmtLines fuel ind (some false) ts' with _ | es' <;>
          rw [hrec] at h
        · exact absurd h (by simp)
        · rw [Option.some_inj] at h
          subst h
          obtain ⟨htoks, hgE, hhead⟩ := ih ind (some false) ts' es' hgood' hrec
          have hhd : (renderE es').head? = some '\n' := hhead false rfl
          refine ⟨?_, ?_, ?_⟩
          · rw [toksE_append, toksE_lineE, htoks, List.append_nil]
            rfl
          · refine goodEW_append _ _ none ?_ hgE
            rw [chainCharsE_none, hhd]
            exact goodEW_lineE_single _ t (leadFor_ws sep ind)
              (hgood t (List.mem_cons_self t ts'))
          · intro b hb
            subst hb
            exact renderE_lineE_lead_head b ind [t] none es'
      · -- close brace line
        match ind, h with
        | 0, h => exact absurd h (by simp)
        | ind2 + 1, h =>
          dsimp only at h
          rcases hrec : fmtLines fuel ind2 (some (decide (ind2 = 0))) ts'
              with _ | es' <;> rw [hrec] at h
          · exact absurd h (by simp)
          · rw [Option.some_inj] at h
            subst h
            obtain ⟨htoks, hgE, hhead⟩ :=
              ih ind2 (some (decide (ind2 = 0))) ts' es' hgood' hrec
            have hhd : (renderE es').head? = some '\n' := hhead _ rfl
            refine ⟨?_, ?_, ?_⟩
            · rw [toksE_append, toksE_lineE, htoks, List.append_nil]
              rfl
            · refine goodEW_append _ _ none ?_ hgE
              rw [chainCharsE_none, hhd]
              exact goodEW_lineE_single _ t (leadFor_ws sep ind2)
                (hgood t (List.mem_cons_self t ts'))
            · intro b hb
              subst hb
              exact renderE_lineE_lead_head b ind2 [t] none es'
      · -- statement or block start
        rcases hsplit : (t :: ts').dropWhile headTok with _ | ⟨d, rest2⟩ <;>
          rw [hsplit] at h
        · exact absurd h (by simp)
        · dsimp only at h
          have hmainmem : ∀ x ∈ (t :: ts').takeWhile headTok,
              goodTok x ∧ x.kind ≠ Lex.TokenKind.comment := by
            intro x hx
            refine ⟨hgood x ((List.takeWhile_sublist headTok).subset hx), ?_⟩
            exact headTok_not_comment x (List.mem_takeWhile_imp hx)
          have hdmem : d ∈ t :: ts' := by
            refine (List.dropWhile_sublist headTok).subset ?_
            rw [hsplit]
            exact List.mem_cons_self d rest2
          have hrest2 : ∀ x ∈ rest2, goodTok x := by
            intro x hx
            refine hgood x ((List.dropWhile_sublist headTok).subset ?_)
            rw [hsplit]
            exact List.mem_cons_of_mem d hx
          have htkdk : (t :: ts').takeWhile headTok ++ (d :: rest2) =
              t :: ts' := by
            rw [← hsplit]
            exact List.takeWhile_append_dropWhile headTok (t :: ts')
          split_ifs at h with hsemi hopen
          · rcases hrec : fmtLines fuel ind (some (decide (ind = 0))) rest2
                with _ | es' <;> rw [hrec] at h
            · exact absurd h (by simp)
            · rw [Option.some_inj] at h
              subst h
              obtain ⟨htoks, hgE, hhead⟩ :=
                ih ind (some (decide (ind = 0))) rest2 es' hrest2 hrec
              have hhd : (renderE es').head? = some '\n' := hhead _ rfl
              obtain ⟨hdk, hdt⟩ := isSemiTok_spec d hsemi
              refine ⟨?_, ?_, ?_⟩
              · rw [toksE_append, toksE_lineE, htoks, List.append_assoc,
                  List.singleton_append, htkdk]
              · refine goodEW_append _ _ none ?_ hgE
                rw [chainCharsE_none, hhd]
                refine goodEW_lineE_tail _ _ d (leadFor_ws sep ind)
                  hmainmem (hgood d hdmem) ?_
                exact ⟨';', [], hdt, by decide, by decide, by decide,
                  by decide⟩
              · intro b hb
                subst hb
                exact renderE_lineE_lead_head b ind _ (some d) es'
          · rcases hrec : fmtLines fuel (ind + 1) (some false) rest2
                with _ | es' <;> rw [hrec] at h
            · exact absurd h (by simp)
            · rw [Option.some_inj] at h
              subst h
              obtain ⟨htoks, hgE, hhead⟩ :=
                ih (ind + 1) (some false) rest2 es' hrest2 hrec
              have hhd : (renderE es').head? = some '\n' := hhead _ rfl
              obtain ⟨hdk, hdt⟩ := isOpenTok_spec d hopen
              refine ⟨?_, ?_, ?_⟩
              · rw [toksE_append, toksE_lineE, htoks, List.append_nil,
                  List.append_assoc, List.singleton_append, htkdk]
              · refine goodEW_append _ _ none ?_ hgE
                rw [chainCharsE_none, hhd]
                refine goodEW_lineE_main _ _ (leadFor_ws sep ind) ?_ ?_
                · intro x hx
                  rcases List.mem_append.mp hx with hx | hx
                  · exact hmainmem x hx
                  · rcases List.mem_singleton.mp hx with rfl
                    refine ⟨hgood x hdmem, ?_⟩
                    rw [hdk]
                    intro hcc
                    cases hcc
                · simp
              · intro b hb
                subst hb
                exact renderE_lineE_lead_head b ind _ none es' 

/-- Claim C2: formatting is idempotent; for every source the format
engine accepts, formatting the formatted output returns it unchanged,
so that composing format with itself equals format. -/
theorem c2_format_idempotent (src : List Char) :
    (format src).bind format = format src := by
  rcases hf : format src with _ | out
  · rfl
  · show format out = some out
    rw [format.eq_def] at hf
    rcases hlex : Lex.lex src with _ | ts <;> rw [hlex] at hf
    · exact absurd hf (by simp)
    · dsimp only at hf
      rcases hfmt : fmtLines ((meaningfulToks ts).length + 1) 0 none
          (meaningfulToks ts) with _ | es <;> rw [hfmt] at hf
      · exact absurd hf (by simp)
      · rw [Option.some_inj] at hf
        subst hf
        have hgoodts := lexFuel_goodToks (src.length + 1) src 1 1 0 ts hlex
        have hms : ∀ t ∈ meaningfulToks ts, goodTok t :=
          meaningfulToks_good ts hgoodts
        obtain ⟨htoks, hgE, -⟩ :=
          fmtLines_spec ((meaningfulToks ts).length + 1) 0 none
            (meaningfulToks ts) es hms hfmt
        obtain ⟨ts', hts', hmt⟩ :=
          lexFuel_render es ((renderE es).length + 1) 1 1 0
            (by omega) hgE
        have hlex2 : Lex.lex (renderE es) = some ts' := hts'
        have hmm : meaningfulToks ts' = meaningfulToks ts := by
          rw [hmt, htoks]
        rw [format.eq_def, hlex2]
        dsimp only
        rw [hmm, hfmt]

end Fmt

end Prototool
